import Mathlib

/-!
# A shallow embedding of the `kvs` bitcask-style key/value store

This file embeds `src/lib.rs` of the store: the `Command` model, the
serialized log format (serde_json's externally tagged encoding, written as
concatenated JSON objects), the replay iterator (`LogReplay`), the log
primitives (`Log::read`, `Log::append_command`), and the engine
(`KvStore::{open, get, set, remove, compact}`).

Modelling conventions:
- The log file is a `List Char`; each `Char` stands for one byte of the
  encoded stream (exact for ASCII content, a symbol-level abstraction for
  multi-byte UTF-8 scalars).  Offsets (`LogPointer`) are positions in that
  list.
- `HashMap<String, LogPointer>` is modelled as an association list with
  hash-map semantics (`idxGet`, `idxInsert`, `idxRemove`); iteration order
  during compaction is the list order, standing in for the map's arbitrary
  iteration order.
- Error payloads (`io::Error`, `serde_json::Error`) are dropped: only the
  variant tag is observable to the engine.
- `&mut self` methods become functions returning the new state paired with
  the `Result`; on `Err` the returned state is whatever the method had
  mutated so far, exactly as in Rust.
- The JSON decoder is modelled on the canonical records the store itself
  writes: it accepts exactly serde_json's compact encoding of `Command`
  (plus the standard string escapes and leading whitespace, which
  serde_json's stream deserializer skips).  Unicode escapes are decoded
  for scalars below the surrogate range, which covers every escape the
  encoder emits.
-/

/-- The error enum of `src/lib.rs` (payloads of `Io`/`Serde` dropped). -/
inductive Error where
  | io
  | serde
  | logFileCorrupted
  | keyNotFound
deriving DecidableEq, Repr

/-- `Command`: a request written to and read from the log. -/
inductive Command where
  | set (key value : String)
  | remove (key : String)
deriving DecidableEq, Repr

/-- Lower-case hex digit, as in serde_json's escape table. -/
def hexDigit (n : Nat) : Char :=
  if n < 10 then Char.ofNat (48 + n) else Char.ofNat (87 + n)

/-- serde_json's escaping of a single character inside a JSON string. -/
def escapeChar (c : Char) : List Char :=
  if c = '"' then ['\\', '"']
  else if c = '\\' then ['\\', '\\']
  else if c = Char.ofNat 8 then ['\\', 'b']
  else if c = Char.ofNat 9 then ['\\', 't']
  else if c = Char.ofNat 10 then ['\\', 'n']
  else if c = Char.ofNat 12 then ['\\', 'f']
  else if c = Char.ofNat 13 then ['\\', 'r']
  else if c.toNat < 32 then
    ['\\', 'u', '0', '0', hexDigit (c.toNat / 16), hexDigit (c.toNat % 16)]
  else [c]

/-- Escape a whole character sequence. -/
def escList : List Char → List Char
  | [] => []
  | c :: rest => escapeChar c ++ escList rest

/-- A JSON string literal: quote, escaped content, quote. -/
def encodeString (s : String) : List Char :=
  '"' :: (escList s.data ++ ['"'])

/-- Literal head of a serialized `Set` record, `{"Set":{"key":`. -/
def litSetA : List Char := "\x7b\"Set\":\x7b\"key\":".toList

/-- Literal `,"value":` between the two fields of a `Set` record. -/
def litSetB : List Char := ",\"value\":".toList

/-- Literal head of a serialized `Remove` record, `{"Remove":{"key":`. -/
def litRemA : List Char := "\x7b\"Remove\":\x7b\"key\":".toList

/-- Literal `}}` closing a record. -/
def litEnd : List Char := "\x7d\x7d".toList

/-- serde_json's compact encoding of a `Command` (externally tagged enum),
exactly the bytes `serde_json::to_writer` appends in `Log::append_command`. -/
def encode : Command → List Char
  | Command.set k v => litSetA ++ encodeString k ++ litSetB ++ encodeString v ++ litEnd
  | Command.remove k => litRemA ++ encodeString k ++ litEnd

/-- Concatenation of the encodings of a record sequence: the content of a
log file written purely by the store itself (no separators). -/
def encList : List Command → List Char
  | [] => []
  | c :: rest => encode c ++ encList rest

/-- JSON whitespace, as skipped by serde_json before a value. -/
def isWs (c : Char) : Bool :=
  c = ' ' || c = Char.ofNat 9 || c = Char.ofNat 10 || c = Char.ofNat 13

/-- Skip leading whitespace; return how many characters were skipped and
the remainder. -/
def skipWs : List Char → Nat × List Char
  | [] => (0, [])
  | c :: rest =>
    if isWs c then
      let (n, r) := skipWs rest
      (n + 1, r)
    else (0, c :: rest)

/-- Value of one hex digit, upper or lower case. -/
def hexVal (c : Char) : Option Nat :=
  if 48 ≤ c.toNat ∧ c.toNat ≤ 57 then some (c.toNat - 48)
  else if 97 ≤ c.toNat ∧ c.toNat ≤ 102 then some (c.toNat - 87)
  else if 65 ≤ c.toNat ∧ c.toNat ≤ 70 then some (c.toNat - 55)
  else none

/-- Decode the body of a JSON string (after the opening quote) up to the
closing quote, un-escaping as serde_json does; returns the decoded
characters and the remainder of the stream.  `\uXXXX` escapes are decoded
below the surrogate range, which covers everything `escapeChar` emits. -/
def parseStrAux : List Char → List Char → Option (List Char × List Char)
  | [], _ => none
  | c :: rest, acc =>
    if c = '"' then some (acc.reverse, rest)
    else if c = '\\' then
      match rest with
      | [] => none
      | e :: rest2 =>
        if e = '"' then parseStrAux rest2 ('"' :: acc)
        else if e = '\\' then parseStrAux rest2 ('\\' :: acc)
        else if e = '/' then parseStrAux rest2 ('/' :: acc)
        else if e = 'b' then parseStrAux rest2 (Char.ofNat 8 :: acc)
        else if e = 't' then parseStrAux rest2 (Char.ofNat 9 :: acc)
        else if e = 'n' then parseStrAux rest2 (Char.ofNat 10 :: acc)
        else if e = 'f' then parseStrAux rest2 (Char.ofNat 12 :: acc)
        else if e = 'r' then parseStrAux rest2 (Char.ofNat 13 :: acc)
        else if e = 'u' then
          match rest2 with
          | h1 :: h2 :: h3 :: h4 :: rest3 =>
            match hexVal h1, hexVal h2, hexVal h3, hexVal h4 with
            | some a, some b, some c3, some d =>
              let n := ((a * 16 + b) * 16 + c3) * 16 + d
              if n < 55296 then parseStrAux rest3 (Char.ofNat n :: acc)
              else none
            | _, _, _, _ => none
          | _ => none
        else none
    else parseStrAux rest (c :: acc)

/-- Decode a JSON string literal (expects the opening quote). -/
def parseJString : List Char → Option (String × List Char)
  | [] => none
  | c :: rest =>
    if c = '"' then (parseStrAux rest []).map (fun p => (String.mk p.1, p.2))
    else none

/-- Match a literal character sequence at the head of the stream. -/
def expects : List Char → List Char → Option (List Char)
  | [], s => some s
  | _ :: _, [] => none
  | l :: lr, c :: cr => if c = l then expects lr cr else none

/-- Decode exactly one serialized `Command` at the head of the stream
(no leading whitespace), returning it and the remainder; `none` models a
serde_json decode error. -/
def decodeRecord (s : List Char) : Option (Command × List Char) :=
  match expects litSetA s with
  | some s1 =>
    match parseJString s1 with
    | some (k, s2) =>
      match expects litSetB s2 with
      | some s3 =>
        match parseJString s3 with
        | some (v, s4) =>
          match expects litEnd s4 with
          | some s5 => some (Command.set k v, s5)
          | none => none
        | none => none
      | none => none
    | none => none
  | none =>
    match expects litRemA s with
    | some s1 =>
      match parseJString s1 with
      | some (k, s2) =>
        match expects litEnd s2 with
        | some s3 => some (Command.remove k, s3)
        | none => none
      | none => none
    | none => none

/-- One pass of `LogReplay` (`Iterator::next` repeated until exhaustion),
fuelled by the stream length: `pos` is the stream deserializer's
`byte_offset()` captured *before* each `next()` call — the number of
characters consumed into successfully decoded values so far, excluding any
whitespace not yet skipped.  A decode failure yields a single error item
and ends the iteration. -/
def replayAux : Nat → List Char → Nat → List (Except Error (Command × Nat))
  | 0, _, _ => []
  | fuel + 1, s, pos =>
    if (skipWs s).2 = [] then []
    else
      match decodeRecord (skipWs s).2 with
      | some (c, rest) =>
        Except.ok (c, pos) :: replayAux fuel rest (pos + (s.length - rest.length))
      | none => [Except.error Error.serde]

/-- `Log::replay` followed by draining the iterator: the list of
`(command, LogPointer)` items (or a final error item) for a file. -/
def replayFrom (s : List Char) (pos : Nat) : List (Except Error (Command × Nat)) :=
  replayAux s.length s pos

namespace Log

/-- `Log::read`: seek to `ptr`, decode one value with a fresh serde_json
stream deserializer (which skips leading whitespace).  End-of-stream is
`LogFileCorrupted`; a decode failure is a `Serde` error. -/
def read (file : List Char) (ptr : Nat) : Except Error Command :=
  if (skipWs (file.drop ptr)).2 = [] then Except.error Error.logFileCorrupted
  else
    match decodeRecord ((skipWs (file.drop ptr)).2) with
    | some (c, _) => Except.ok c
    | none => Except.error Error.serde

/-- `Log::append_command`: seek to the end, record the position, write the
serialized command; returns the `LogPointer` and the new file content. -/
def appendCommand (file : List Char) (cmd : Command) : Nat × List Char :=
  (file.length, file ++ encode cmd)

end Log

/-- Hash-map lookup on the association-list model of `HashMap::get`. -/
def idxGet : List (String × Nat) → String → Option Nat
  | [], _ => none
  | (k, p) :: rest, key => if k = key then some p else idxGet rest key

/-- `HashMap::insert`: returns the previous value (if any) and the updated
map; replaces in place, appends fresh keys. -/
def idxInsert : List (String × Nat) → String → Nat → Option Nat × List (String × Nat)
  | [], key, ptr => (none, [(key, ptr)])
  | (k, p) :: rest, key, ptr =>
    if k = key then (some p, (key, ptr) :: rest)
    else
      let (old, rest') := idxInsert rest key ptr
      (old, (k, p) :: rest')

/-- `HashMap::remove`: returns the removed value (if any) and the updated
map. -/
def idxRemove : List (String × Nat) → String → Option Nat × List (String × Nat)
  | [], _ => (none, [])
  | (k, p) :: rest, key =>
    if k = key then (some p, rest)
    else
      let (old, rest') := idxRemove rest key
      (old, (k, p) :: rest')

/-- The engine state of `KvStore`: the in-memory index, the content of the
active log file (`current.log`), and the obsolete-entry counter.  The
directory path carries no observable state in this model and is dropped. -/
structure KvStore where
  in_memory_index : List (String × Nat)
  log : List Char
  obsolete_entries : Nat
deriving DecidableEq, Repr

namespace KvStore

/-- `KvStore::get`: look the key up in the index; on a hit, read the log at
the stored pointer, which must decode to a `Set` (a `Remove` there is
`LogFileCorrupted`).  Returns the (unchanged) state and the result. -/
def get (s : KvStore) (key : String) : KvStore × Except Error (Option String) :=
  match idxGet s.in_memory_index key with
  | some p =>
    match Log.read s.log p with
    | Except.ok (Command.set _ v) => (s, Except.ok (some v))
    | Except.ok (Command.remove _) => (s, Except.error Error.logFileCorrupted)
    | Except.error e => (s, Except.error e)
  | none => (s, Except.ok none)

/-- `KvStore::should_compact`: the write-triggered compaction policy. -/
def shouldCompact (s : KvStore) : Bool :=
  s.obsolete_entries ≥ 1000

/-- The loop body of `KvStore::compact`: for each `(key, ptr)` entry of the
index (iterated in list order, standing in for the hash map's arbitrary
order), read the live record — it must be a `Set`, else `LogFileCorrupted`
— and append a `Set` with the index's key and the record's value to the
compaction log, inserting the fresh pointer into the replacement index. -/
def compactLoop (log : List Char) :
    List (String × Nat) → List (String × Nat) → List Char →
    Except Error (List (String × Nat) × List Char)
  | [], cidx, clog => Except.ok (cidx, clog)
  | (k, ptr) :: rest, cidx, clog =>
    match Log.read log ptr with
    | Except.ok (Command.set _ v) =>
      let (q, clog') := Log.appendCommand clog (Command.set k v)
      compactLoop log rest (idxInsert cidx k q).2 clog'
    | Except.ok (Command.remove _) => Except.error Error.logFileCorrupted
    | Except.error e => Except.error e

/-- `KvStore::compact`: rewrite a fresh log from the live index entries,
swap it in (the model of the `compact.log` → `current.log` rename), replace
the index, and zero the counter.  On error nothing has been committed: the
in-memory state and `current.log` are unchanged. -/
def compact (s : KvStore) : KvStore × Except Error Unit :=
  match compactLoop s.log s.in_memory_index [] [] with
  | Except.ok (cidx, clog) => (⟨cidx, clog, 0⟩, Except.ok ())
  | Except.error e => (s, Except.error e)

/-- `KvStore::set`: append the `Set` record, insert the returned pointer
into the index (bumping the counter if the key existed), then compact if
the policy fires. -/
def set (s : KvStore) (key value : String) : KvStore × Except Error Unit :=
  let cmd := Command.set key value
  let (ptr, log') := Log.appendCommand s.log cmd
  let (old, idx') := idxInsert s.in_memory_index key ptr
  let s' : KvStore :=
    ⟨idx', log', if old.isSome then s.obsolete_entries + 1 else s.obsolete_entries⟩
  if s'.shouldCompact then s'.compact else (s', Except.ok ())

/-- `KvStore::remove`, with the fallibility of the log append made
explicit: the index entry is removed *first* (`KeyNotFound` if absent,
state untouched); only then is the `Remove` record appended and the counter
bumped.  `appendOk = false` models `Log::append_command` returning `Err`
(an I/O failure): the error propagates with the key already gone from the
index, nothing appended, and the counter not yet incremented. -/
def removeCore (s : KvStore) (key : String) (appendOk : Bool) :
    KvStore × Except Error Unit :=
  match idxRemove s.in_memory_index key with
  | (none, _) => (s, Except.error Error.keyNotFound)
  | (some _, idx') =>
    if appendOk then
      let (_, log') := Log.appendCommand s.log (Command.remove key)
      let s' : KvStore := ⟨idx', log', s.obsolete_entries + 1⟩
      if s'.shouldCompact then s'.compact else (s', Except.ok ())
    else ({ s with in_memory_index := idx' }, Except.error Error.io)

/-- `KvStore::remove` on the happy I/O path. -/
def remove (s : KvStore) (key : String) : KvStore × Except Error Unit :=
  removeCore s key true

end KvStore

/-- The fold of `KvStore::open` over the replay items: rebuild the index
and the obsolete counter; a `Remove` of an absent key is `KeyNotFound`; an
error item from the iterator propagates. -/
def replayFold : List (Except Error (Command × Nat)) → List (String × Nat) → Nat →
    Except Error (List (String × Nat) × Nat)
  | [], idx, obs => Except.ok (idx, obs)
  | Except.error e :: _, _, _ => Except.error e
  | Except.ok (Command.set key _, p) :: rest, idx, obs =>
    let (old, idx') := idxInsert idx key p
    replayFold rest idx' (if old.isSome then obs + 1 else obs)
  | Except.ok (Command.remove key, _) :: rest, idx, obs =>
    match idxRemove idx key with
    | (some _, idx') => replayFold rest idx' (obs + 1)
    | (none, _) => Except.error Error.keyNotFound

/-- `KvStore::open` on a directory whose `current.log` has content `file`
(`[]` for a fresh or empty directory, since open creates the file):
replay front-to-back, rebuild index and counter, keep the log. -/
def KvStore.openStore (file : List Char) : Except Error KvStore :=
  match replayFold (replayFrom file 0) [] 0 with
  | Except.ok (idx, obs) => Except.ok ⟨idx, file, obs⟩
  | Except.error e => Except.error e

/-- The engine state `KvStore::open` yields on an empty directory. -/
def emptyStore : KvStore := ⟨[], [], 0⟩

/-- A mutating operation issued against an open engine (`get` is included:
it takes `&mut self` but, as proved below, never changes the state). -/
inductive Op where
  | opSet (k v : String)
  | opRemove (k : String)
  | opGet (k : String)
deriving DecidableEq, Repr

/-- The state reached after one operation (its `Result` is discarded; a
failed operation leaves whatever the method mutated, as in Rust). -/
def applyOp (s : KvStore) : Op → KvStore
  | Op.opSet k v => (s.set k v).1
  | Op.opRemove k => (s.remove k).1
  | Op.opGet k => (s.get k).1

/-- The state reached after a sequence of operations. -/
def runOps (s : KvStore) (ops : List Op) : KvStore :=
  ops.foldl applyOp s

instance {ε α : Type} [DecidableEq ε] [DecidableEq α] : DecidableEq (Except ε α) :=
  fun a b =>
    match a, b with
    | Except.ok x, Except.ok y =>
      if h : x = y then isTrue (by rw [h]) else isFalse (by intro hc; cases hc; exact h rfl)
    | Except.error x, Except.error y =>
      if h : x = y then isTrue (by rw [h]) else isFalse (by intro hc; cases hc; exact h rfl)
    | Except.ok _, Except.error _ => isFalse (by intro hc; cases hc)
    | Except.error _, Except.ok _ => isFalse (by intro hc; cases hc)

theorem char_ofNat_toNat (c : Char) : Char.ofNat c.toNat = c := by
  have h : Nat.isValidChar c.toNat := c.valid
  simp only [Char.ofNat, h, dite_true]
  rfl

theorem hexVal_hexDigit {n : Nat} (h : n < 16) : hexVal (hexDigit n) = some n := by
  interval_cases n <;> rfl

theorem expects_self (lit : List Char) (rest : List Char) :
    expects lit (lit ++ rest) = some rest := by
  induction lit with
  | nil => rfl
  | cons l lr ih => simp [expects, ih]

theorem psa_quote (r acc : List Char) : parseStrAux ('"' :: r) acc = some (acc.reverse, r) := by
  rw [parseStrAux.eq_def]; simp

theorem psa_escQuote (r acc : List Char) :
    parseStrAux ('\\' :: '"' :: r) acc = parseStrAux r ('"' :: acc) := by
  rw [parseStrAux.eq_def]; simp

theorem psa_escBack (r acc : List Char) :
    parseStrAux ('\\' :: '\\' :: r) acc = parseStrAux r ('\\' :: acc) := by
  rw [parseStrAux.eq_def]; simp

theorem psa_escB (r acc : List Char) :
    parseStrAux ('\\' :: 'b' :: r) acc = parseStrAux r (Char.ofNat 8 :: acc) := by
  rw [parseStrAux.eq_def]; simp

theorem psa_escT (r acc : List Char) :
    parseStrAux ('\\' :: 't' :: r) acc = parseStrAux r (Char.ofNat 9 :: acc) := by
  rw [parseStrAux.eq_def]; simp

theorem psa_escN (r acc : List Char) :
    parseStrAux ('\\' :: 'n' :: r) acc = parseStrAux r (Char.ofNat 10 :: acc) := by
  rw [parseStrAux.eq_def]; simp

theorem psa_escF (r acc : List Char) :
    parseStrAux ('\\' :: 'f' :: r) acc = parseStrAux r (Char.ofNat 12 :: acc) := by
  rw [parseStrAux.eq_def]; simp

theorem psa_escR (r acc : List Char) :
    parseStrAux ('\\' :: 'r' :: r) acc = parseStrAux r (Char.ofNat 13 :: acc) := by
  rw [parseStrAux.eq_def]; simp

theorem psa_escU {a b c3 d : Char} {va vb vc vd : Nat}
    (ha : hexVal a = some va) (hb : hexVal b = some vb)
    (hc : hexVal c3 = some vc) (hd : hexVal d = some vd)
    (hn : ((va * 16 + vb) * 16 + vc) * 16 + vd < 55296) (r acc : List Char) :
    parseStrAux ('\\' :: 'u' :: a :: b :: c3 :: d :: r) acc =
      parseStrAux r (Char.ofNat (((va * 16 + vb) * 16 + vc) * 16 + vd) :: acc) := by
  rw [parseStrAux.eq_def]; simp [ha, hb, hc, hd, hn]

theorem psa_other {c : Char} (h1 : ¬c = '"') (h2 : ¬c = '\\') (r acc : List Char) :
    parseStrAux (c :: r) acc = parseStrAux r (c :: acc) := by
  rw [parseStrAux.eq_def]; simp [h1, h2]

theorem escapeChar_quote : escapeChar '"' = ['\\', '"'] := by decide

theorem escapeChar_back : escapeChar '\\' = ['\\', '\\'] := by decide

theorem escapeChar_b : escapeChar (Char.ofNat 8) = ['\\', 'b'] := by decide

theorem escapeChar_t : escapeChar (Char.ofNat 9) = ['\\', 't'] := by decide

theorem escapeChar_n : escapeChar (Char.ofNat 10) = ['\\', 'n'] := by decide

theorem escapeChar_f : escapeChar (Char.ofNat 12) = ['\\', 'f'] := by decide

theorem escapeChar_r : escapeChar (Char.ofNat 13) = ['\\', 'r'] := by decide

theorem escapeChar_ctrl {c : Char} (h1 : ¬c = '"') (h2 : ¬c = '\\')
    (h3 : ¬c = Char.ofNat 8) (h4 : ¬c = Char.ofNat 9) (h5 : ¬c = Char.ofNat 10)
    (h6 : ¬c = Char.ofNat 12) (h7 : ¬c = Char.ofNat 13) (h8 : c.toNat < 32) :
    escapeChar c = ['\\', 'u', '0', '0', hexDigit (c.toNat / 16), hexDigit (c.toNat % 16)] := by
  simp [escapeChar, h1, h2, h3, h4, h5, h6, h7, h8]

theorem escapeChar_plain {c : Char} (h1 : ¬c = '"') (h2 : ¬c = '\\')
    (h3 : ¬c = Char.ofNat 8) (h4 : ¬c = Char.ofNat 9) (h5 : ¬c = Char.ofNat 10)
    (h6 : ¬c = Char.ofNat 12) (h7 : ¬c = Char.ofNat 13) (h8 : ¬c.toNat < 32) :
    escapeChar c = [c] := by
  simp [escapeChar, h1, h2, h3, h4, h5, h6, h7, h8]

theorem parseStrAux_escList (s : List Char) : ∀ acc rest,
    parseStrAux (escList s ++ '"' :: rest) acc = some (acc.reverse ++ s, rest) := by
  induction s with
  | nil => intro acc rest; simp [escList, psa_quote]
  | cons c s ih =>
    intro acc rest
    rw [escList, List.append_assoc]
    by_cases h1 : c = '"'
    · subst h1
      rw [escapeChar_quote]
      simp only [List.cons_append, List.nil_append]
      rw [psa_escQuote, ih]; simp
    by_cases h2 : c = '\\'
    · subst h2
      rw [escapeChar_back]
      simp only [List.cons_append, List.nil_append]
      rw [psa_escBack, ih]; simp
    by_cases h3 : c = Char.ofNat 8
    · subst h3
      rw [escapeChar_b]
      simp only [List.cons_append, List.nil_append]
      rw [psa_escB, ih]; simp
    by_cases h4 : c = Char.ofNat 9
    · subst h4
      rw [escapeChar_t]
      simp only [List.cons_append, List.nil_append]
      rw [psa_escT, ih]; simp
    by_cases h5 : c = Char.ofNat 10
    · subst h5
      rw [escapeChar_n]
      simp only [List.cons_append, List.nil_append]
      rw [psa_escN, ih]; simp
    by_cases h6 : c = Char.ofNat 12
    · subst h6
      rw [escapeChar_f]
      simp only [List.cons_append, List.nil_append]
      rw [psa_escF, ih]; simp
    by_cases h7 : c = Char.ofNat 13
    · subst h7
      rw [escapeChar_r]
      simp only [List.cons_append, List.nil_append]
      rw [psa_escR, ih]; simp
    by_cases h8 : c.toNat < 32
    · have hhi : c.toNat / 16 < 16 := by omega
      have hlo : c.toNat % 16 < 16 := by omega
      have h0 : hexVal '0' = some 0 := rfl
      have hn : ((0 * 16 + 0) * 16 + c.toNat / 16) * 16 + c.toNat % 16 = c.toNat := by
        omega
      rw [escapeChar_ctrl h1 h2 h3 h4 h5 h6 h7 h8]
      simp only [List.cons_append, List.nil_append]
      rw [psa_escU h0 h0 (hexVal_hexDigit hhi) (hexVal_hexDigit hlo) (by omega)]
      rw [hn, char_ofNat_toNat, ih]
      simp
    · rw [escapeChar_plain h1 h2 h3 h4 h5 h6 h7 h8]
      simp only [List.cons_append, List.nil_append]
      rw [psa_other h1 h2, ih]
      simp

theorem parseStrAux_length :
    ∀ s acc out r, parseStrAux s acc = some (out, r) → r.length < s.length := by
  intro s acc
  induction s, acc using parseStrAux.induct <;> intro out r h <;>
    rw [parseStrAux.eq_def] at h <;> simp_all <;> try omega

theorem string_mk_data (s : String) : String.mk s.data = s := rfl

theorem parseJString_step (t : List Char) :
    parseJString ('"' :: t) = (parseStrAux t []).map (fun p => (String.mk p.1, p.2)) := by
  rw [parseJString.eq_def]; simp

theorem parseJString_encodeString (s : String) (rest : List Char) :
    parseJString (encodeString s ++ rest) = some (s, rest) := by
  rw [encodeString]
  simp only [List.cons_append, List.append_assoc, List.singleton_append]
  rw [parseJString_step, parseStrAux_escList]
  simp [string_mk_data]

theorem expects_cons (l : Char) (lr : List Char) (c : Char) (cr : List Char) :
    expects (l :: lr) (c :: cr) = if c = l then expects lr cr else none := rfl

theorem parseJString_cons (c : Char) (t : List Char) :
    parseJString (c :: t) =
      if c = '"' then (parseStrAux t []).map (fun p => (String.mk p.1, p.2)) else none := rfl

theorem skipWs_cons (c : Char) (r : List Char) :
    skipWs (c :: r) = if isWs c then ((skipWs r).1 + 1, (skipWs r).2) else (0, c :: r) := rfl

theorem parseJString_length {s : List Char} {k : String} {r : List Char}
    (h : parseJString s = some (k, r)) : r.length < s.length := by
  match s with
  | [] => simp [parseJString] at h
  | c :: t =>
    rw [parseJString_cons] at h
    by_cases hc : c = '"'
    · rw [if_pos hc] at h
      match hp : parseStrAux t [] with
      | none => rw [hp] at h; simp at h
      | some (out, r') =>
        rw [hp] at h
        simp at h
        have := parseStrAux_length t [] out r' hp
        simp [← h.2]
        omega
    · rw [if_neg hc] at h; simp at h

theorem expects_length :
    ∀ lit s r, expects lit s = some r → r.length + lit.length = s.length := by
  intro lit
  induction lit with
  | nil => intro s r h; simp [expects] at h; simp [h]
  | cons l lr ih =>
    intro s r h
    match s with
    | [] => simp [expects] at h
    | c :: cr =>
      rw [expects_cons] at h
      by_cases hc : c = l
      · rw [if_pos hc] at h
        have := ih cr r h
        simp
        omega
      · rw [if_neg hc] at h; simp at h

theorem expects_of_le :
    ∀ lit a, lit.length ≤ a.length →
      ∀ x, expects lit (a ++ x) = (expects lit a).map (fun r => r ++ x) := by
  intro lit
  induction lit with
  | nil => intro a _ x; simp [expects]
  | cons l lr ih =>
    intro a h x
    match a with
    | [] => simp at h
    | c :: cr =>
      simp only [List.cons_append]
      rw [expects_cons, expects_cons]
      by_cases hc : c = l
      · rw [if_pos hc, if_pos hc]
        exact ih cr (by simpa using h) x
      · rw [if_neg hc, if_neg hc]; rfl

theorem expects_litSetA_litRemA (x : List Char) :
    expects litSetA (litRemA ++ x) = none := by
  rw [expects_of_le litSetA litRemA (by decide) x]
  have h : expects litSetA litRemA = none := by decide
  rw [h]
  rfl

theorem decodeRecord_encode (c : Command) (rest : List Char) :
    decodeRecord (encode c ++ rest) = some (c, rest) := by
  cases c with
  | set k v =>
    rw [encode, decodeRecord]
    simp only [List.append_assoc]
    rw [expects_self]
    simp only []
    rw [parseJString_encodeString]
    simp only []
    rw [expects_self]
    simp only []
    rw [parseJString_encodeString]
    simp only []
    rw [expects_self]
  | remove k =>
    rw [encode, decodeRecord]
    simp only [List.append_assoc]
    rw [expects_litSetA_litRemA]
    simp only []
    rw [expects_self]
    simp only []
    rw [parseJString_encodeString]
    simp only []
    rw [expects_self]

theorem decodeRecord_nil : decodeRecord [] = none := by decide

theorem decodeRecord_length {s : List Char} {c : Command} {r : List Char}
    (h : decodeRecord s = some (c, r)) : r.length < s.length := by
  rw [decodeRecord] at h
  repeat' split at h
  all_goals try simp at h
  next _ s1 hA _ k s2 hK _ s3 hB _ v s4 hV _ s5r hE =>
    obtain ⟨-, rfl⟩ := h
    have l1 := expects_length _ _ _ hA
    have l2 := parseJString_length hK
    have l3 := expects_length _ _ _ hB
    have l4 := parseJString_length hV
    have l5 := expects_length _ _ _ hE
    omega
  next _ hA _ s1 hR _ k s2 hK _ s5r hE =>
    obtain ⟨-, rfl⟩ := h
    have l1 := expects_length _ _ _ hR
    have l2 := parseJString_length hK
    have l3 := expects_length _ _ _ hE
    omega

theorem skipWs_spec : ∀ s : List Char, (skipWs s).1 + (skipWs s).2.length = s.length := by
  intro s
  induction s with
  | nil => rfl
  | cons c r ih =>
    rw [skipWs_cons]
    by_cases h : isWs c
    · simp only [h, if_true, ite_true]
      simp only [List.length_cons]
      omega
    · simp [h]

theorem skipWs_len_le (s : List Char) : (skipWs s).2.length ≤ s.length := by
  have := skipWs_spec s
  omega

theorem skipWs_ws_append {w : List Char} (hw : ∀ c ∈ w, isWs c = true) (s : List Char) :
    skipWs (w ++ s) = ((skipWs s).1 + w.length, (skipWs s).2) := by
  induction w with
  | nil => simp
  | cons c wr ih =>
    simp only [List.cons_append]
    rw [skipWs_cons, if_pos (hw c (by simp))]
    rw [ih (fun x hx => hw x (by simp [hx]))]
    simp only [List.length_cons, Prod.mk.injEq]
    constructor
    · omega
    · trivial

theorem encode_head_lbrace (c : Command) : ∃ t, encode c = Char.ofNat 123 :: t := by
  cases c with
  | set k v =>
    refine ⟨"\"Set\":\x7b\"key\":".toList ++ (encodeString k ++ litSetB ++ encodeString v ++ litEnd), ?_⟩
    rw [encode]
    have h : litSetA = Char.ofNat 123 :: "\"Set\":\x7b\"key\":".toList := by decide
    rw [h]
    simp
  | remove k =>
    refine ⟨"\"Remove\":\x7b\"key\":".toList ++ (encodeString k ++ litEnd), ?_⟩
    rw [encode]
    have h : litRemA = Char.ofNat 123 :: "\"Remove\":\x7b\"key\":".toList := by decide
    rw [h]
    simp

theorem skipWs_encode (c : Command) (r : List Char) :
    skipWs (encode c ++ r) = (0, encode c ++ r) := by
  obtain ⟨t, ht⟩ := encode_head_lbrace c
  rw [ht]
  simp only [List.cons_append]
  rw [skipWs_cons, if_neg (by decide : ¬ isWs (Char.ofNat 123) = true)]

theorem replayAux_nil : ∀ f pos, replayAux f [] pos = [] := by
  intro f pos
  cases f <;> rfl

theorem replayAux_succ (f : Nat) (s : List Char) (pos : Nat) :
    replayAux (f + 1) s pos =
      if (skipWs s).2 = [] then []
      else
        match decodeRecord (skipWs s).2 with
        | some (c, rest) =>
          Except.ok (c, pos) :: replayAux f rest (pos + (s.length - rest.length))
        | none => [Except.error Error.serde] := rfl

theorem replayAux_fuel : ∀ f s pos, s.length ≤ f → replayAux f s pos = replayFrom s pos := by
  intro f
  induction f using Nat.strong_induction_on with
  | _ f ih =>
    intro s pos hf
    match s with
    | [] => rw [replayAux_nil, replayFrom, List.length_nil, replayAux_nil]
    | c0 :: t =>
      match f with
      | 0 => simp at hf
      | k + 1 =>
        rw [replayFrom]
        simp only [List.length_cons]
        rw [replayAux_succ, replayAux_succ]
        by_cases hr : (skipWs (c0 :: t)).2 = []
        · rw [if_pos hr, if_pos hr]
        · rw [if_neg hr, if_neg hr]
          cases hd : decodeRecord (skipWs (c0 :: t)).2 with
          | none => rfl
          | some p =>
            obtain ⟨c, rest⟩ := p
            have hlt : rest.length < (skipWs (c0 :: t)).2.length := decodeRecord_length hd
            have hle : (skipWs (c0 :: t)).2.length ≤ (c0 :: t).length := skipWs_len_le _
            simp only [List.length_cons] at hlt hle hf
            have e1 := ih k (by omega) rest (pos + ((c0 :: t).length - rest.length)) (by omega)
            have e2 := ih t.length (by omega) rest (pos + ((c0 :: t).length - rest.length)) (by omega)
            simp only [e1, e2]

theorem replayFrom_nil (pos : Nat) : replayFrom [] pos = [] := rfl

theorem replayFrom_end {s : List Char} (h : (skipWs s).2 = []) (pos : Nat) :
    replayFrom s pos = [] := by
  match s with
  | [] => rfl
  | c0 :: t =>
    rw [replayFrom]
    simp only [List.length_cons]
    rw [replayAux_succ, if_pos h]

theorem replayFrom_step {s : List Char} {c : Command} {rest : List Char} (pos : Nat)
    (hd : decodeRecord (skipWs s).2 = some (c, rest)) :
    replayFrom s pos =
      Except.ok (c, pos) :: replayFrom rest (pos + (s.length - rest.length)) := by
  have hne : (skipWs s).2 ≠ [] := by
    intro h
    rw [h, decodeRecord_nil] at hd
    cases hd
  match s with
  | [] => exact absurd rfl hne
  | c0 :: t =>
    rw [replayFrom]
    simp only [List.length_cons]
    rw [replayAux_succ, if_neg hne]
    have hlt : rest.length < (skipWs (c0 :: t)).2.length := decodeRecord_length hd
    have hle : (skipWs (c0 :: t)).2.length ≤ (c0 :: t).length := skipWs_len_le _
    simp only [List.length_cons] at hlt hle
    have e := replayAux_fuel t.length rest (pos + (t.length + 1 - rest.length)) (by omega)
    simp only [hd, e, List.length_cons]

/-- The canonical replay view of a whitespace-free log `encList rs`
starting at offset `pos`: each record paired with its start offset. -/
def itemsFrom (pos : Nat) : List Command → List (Command × Nat)
  | [] => []
  | c :: rest => (c, pos) :: itemsFrom (pos + (encode c).length) rest

theorem encList_append (rs rt : List Command) :
    encList (rs ++ rt) = encList rs ++ encList rt := by
  induction rs with
  | nil => simp [encList]
  | cons c rest ih => simp [encList, ih]

theorem encode_length_pos (c : Command) : 0 < (encode c).length := by
  obtain ⟨t, ht⟩ := encode_head_lbrace c
  rw [ht]
  simp

theorem replayFrom_encList : ∀ rs pos, replayFrom (encList rs) pos = (itemsFrom pos rs).map Except.ok := by
  intro rs
  induction rs with
  | nil => intro pos; rfl
  | cons c rest ih =>
    intro pos
    rw [encList]
    have hsk := skipWs_encode c (encList rest)
    have hd : decodeRecord ((skipWs (encode c ++ encList rest)).2) = some (c, encList rest) := by
      rw [hsk]
      exact decodeRecord_encode c _
    rw [replayFrom_step pos hd]
    have hl : (encode c ++ encList rest).length - (encList rest).length = (encode c).length := by
      simp
    rw [hl, ih]
    rfl

theorem read_at {file pre t : List Char} {c : Command} (h : file = pre ++ encode c ++ t) :
    Log.read file pre.length = Except.ok c := by
  rw [Log.read]
  have hdrop : file.drop pre.length = encode c ++ t := by
    rw [h, List.append_assoc, List.drop_left]
  rw [hdrop, skipWs_encode c t]
  obtain ⟨u, hu⟩ := encode_head_lbrace c
  rw [if_neg (by rw [hu]; simp)]
  rw [decodeRecord_encode]

theorem itemsFrom_mem : ∀ {rs : List Command} {pos : Nat} {c : Command} {q : Nat},
    (c, q) ∈ itemsFrom pos rs →
    ∃ rs1 rs2, rs = rs1 ++ c :: rs2 ∧ q = pos + (encList rs1).length := by
  intro rs
  induction rs with
  | nil => intro pos c q h; simp [itemsFrom] at h
  | cons c0 rest ih =>
    intro pos c q h
    rw [itemsFrom] at h
    rcases List.mem_cons.mp h with h1 | h2
    · have hc : c = c0 := congrArg Prod.fst h1
      have hqq : q = pos := congrArg Prod.snd h1
      subst hc; subst hqq
      exact ⟨[], rest, rfl, by simp [encList]⟩
    · obtain ⟨rs1, rs2, hsplit, hq⟩ := ih h2
      refine ⟨c0 :: rs1, rs2, by rw [hsplit]; rfl, ?_⟩
      rw [hq, encList]
      simp
      omega

/-- The key list of an index. -/
def idxKeys (idx : List (String × Nat)) : List String :=
  idx.map Prod.fst

theorem idxInsert_fst : ∀ (idx : List (String × Nat)) k p,
    (idxInsert idx k p).1 = idxGet idx k := by
  intro idx k p
  induction idx with
  | nil => rfl
  | cons e rest ih =>
    obtain ⟨k0, p0⟩ := e
    rw [idxInsert, idxGet]
    by_cases h : k0 = k
    · rw [if_pos h, if_pos h]
    · rw [if_neg h, if_neg h]
      simp [ih]

theorem idxGet_insert_self : ∀ (idx : List (String × Nat)) k p,
    idxGet (idxInsert idx k p).2 k = some p := by
  intro idx k p
  induction idx with
  | nil => simp [idxInsert, idxGet]
  | cons e rest ih =>
    obtain ⟨k0, p0⟩ := e
    rw [idxInsert]
    by_cases h : k0 = k
    · rw [if_pos h]
      simp [idxGet]
    · rw [if_neg h]
      simp only [idxGet]
      rw [if_neg h]
      exact ih

theorem idxGet_insert_ne {k' k : String} (hne : ¬k = k') :
    ∀ (idx : List (String × Nat)) p, idxGet (idxInsert idx k p).2 k' = idxGet idx k' := by
  intro idx p
  induction idx with
  | nil => simp [idxInsert, idxGet, hne]
  | cons e rest ih =>
    obtain ⟨k0, p0⟩ := e
    rw [idxInsert]
    by_cases h : k0 = k
    · rw [if_pos h]
      simp only [idxGet]
      rw [if_neg hne, if_neg (h ▸ hne)]
    · rw [if_neg h]
      simp only [idxGet]
      by_cases h2 : k0 = k'
      · rw [if_pos h2, if_pos h2]
      · rw [if_neg h2, if_neg h2]
        exact ih

theorem idxRemove_fst : ∀ (idx : List (String × Nat)) k,
    (idxRemove idx k).1 = idxGet idx k := by
  intro idx k
  induction idx with
  | nil => rfl
  | cons e rest ih =>
    obtain ⟨k0, p0⟩ := e
    rw [idxRemove, idxGet]
    by_cases h : k0 = k
    · rw [if_pos h, if_pos h]
    · rw [if_neg h, if_neg h]
      simp [ih]

theorem idxGet_remove_ne {k' k : String} (hne : ¬k = k') :
    ∀ (idx : List (String × Nat)), idxGet (idxRemove idx k).2 k' = idxGet idx k' := by
  intro idx
  induction idx with
  | nil => rfl
  | cons e rest ih =>
    obtain ⟨k0, p0⟩ := e
    rw [idxRemove]
    by_cases h : k0 = k
    · rw [if_pos h]
      simp only [idxGet]
      rw [if_neg (h ▸ hne)]
    · rw [if_neg h]
      simp only [idxGet]
      by_cases h2 : k0 = k'
      · rw [if_pos h2, if_pos h2]
      · rw [if_neg h2, if_neg h2]
        exact ih

theorem idxGet_remove_self : ∀ {idx : List (String × Nat)} (k : String),
    (idxKeys idx).Nodup → idxGet (idxRemove idx k).2 k = none := by
  intro idx
  induction idx with
  | nil => intro k _; rfl
  | cons e rest ih =>
    obtain ⟨k0, p0⟩ := e
    intro k hnd
    simp only [idxKeys, List.map_cons, List.nodup_cons] at hnd
    rw [idxRemove]
    by_cases h : k0 = k
    · rw [if_pos h]
      subst h
      clear ih
      induction rest with
      | nil => rfl
      | cons e2 rest2 ih2 =>
        obtain ⟨k1, p1⟩ := e2
        simp only [List.map_cons, List.mem_cons, List.nodup_cons] at hnd
        rw [idxGet]
        rw [if_neg (by tauto)]
        exact ih2 ⟨fun hm => hnd.1 (Or.inr hm), hnd.2.2⟩
    · rw [if_neg h]
      simp only [idxGet]
      rw [if_neg h]
      exact ih k hnd.2

theorem idxGet_none_of_not_mem {idx : List (String × Nat)} {k : String}
    (h : k ∉ idxKeys idx) : idxGet idx k = none := by
  induction idx with
  | nil => rfl
  | cons e rest ih =>
    obtain ⟨k0, p0⟩ := e
    simp only [idxKeys, List.map_cons, List.mem_cons, not_or] at h
    rw [idxGet, if_neg (fun he => h.1 he.symm)]
    exact ih h.2

theorem idxGet_some_mem {idx : List (String × Nat)} {k : String} {p : Nat}
    (h : idxGet idx k = some p) : k ∈ idxKeys idx := by
  by_contra hn
  rw [idxGet_none_of_not_mem hn] at h
  cases h

theorem idxKeys_insert : ∀ (idx : List (String × Nat)) k p,
    idxKeys (idxInsert idx k p).2 =
      if k ∈ idxKeys idx then idxKeys idx else idxKeys idx ++ [k] := by
  intro idx k p
  induction idx with
  | nil => simp [idxInsert, idxKeys]
  | cons e rest ih =>
    obtain ⟨k0, p0⟩ := e
    rw [idxInsert]
    by_cases h : k0 = k
    · rw [if_pos h]
      subst h
      simp [idxKeys]
    · rw [if_neg h]
      simp only [idxKeys, List.map_cons, List.mem_cons]
      rw [show ((idxInsert rest k p).2.map Prod.fst) = idxKeys (idxInsert rest k p).2 from rfl]
      rw [ih]
      by_cases h2 : k ∈ idxKeys rest
      · have h2m : k ∈ List.map Prod.fst rest := h2
        rw [if_pos h2, if_pos (Or.inr h2m)]
        rfl
      · have h2m : k ∉ List.map Prod.fst rest := h2
        rw [if_neg h2, if_neg (not_or.mpr ⟨fun he => h (Eq.symm he), h2m⟩)]
        simp [idxKeys]

theorem idxKeys_insert_nodup {idx : List (String × Nat)} (k : String) (p : Nat)
    (h : (idxKeys idx).Nodup) : (idxKeys (idxInsert idx k p).2).Nodup := by
  rw [idxKeys_insert]
  by_cases hm : k ∈ idxKeys idx
  · rw [if_pos hm]; exact h
  · rw [if_neg hm]
    simp [List.nodup_append, h, hm]

theorem idxKeys_remove_sub : ∀ (idx : List (String × Nat)) (k : String),
    ∀ x ∈ idxKeys (idxRemove idx k).2, x ∈ idxKeys idx := by
  intro idx k
  induction idx with
  | nil => intro x hx; exact hx
  | cons e rest ih =>
    obtain ⟨k0, p0⟩ := e
    intro x hx
    rw [idxRemove] at hx
    by_cases h : k0 = k
    · rw [if_pos h] at hx
      simp [idxKeys] at hx ⊢
      tauto
    · rw [if_neg h] at hx
      simp only [idxKeys, List.map_cons, List.mem_cons] at hx ⊢
      rcases hx with h1 | h2
      · exact Or.inl h1
      · exact Or.inr (ih x h2)

theorem idxKeys_remove_nodup {idx : List (String × Nat)} (k : String)
    (h : (idxKeys idx).Nodup) : (idxKeys (idxRemove idx k).2).Nodup := by
  induction idx with
  | nil => exact h
  | cons e rest ih =>
    obtain ⟨k0, p0⟩ := e
    simp only [idxKeys, List.map_cons, List.nodup_cons] at h
    rw [idxRemove]
    by_cases hk : k0 = k
    · rw [if_pos hk]
      exact h.2
    · rw [if_neg hk]
      simp only [idxKeys, List.map_cons, List.nodup_cons]
      exact ⟨fun hm => h.1 (idxKeys_remove_sub rest k k0 hm), ih h.2⟩

theorem mem_idxGet : ∀ {idx : List (String × Nat)}, (idxKeys idx).Nodup →
    ∀ {k p}, (k, p) ∈ idx → idxGet idx k = some p := by
  intro idx
  induction idx with
  | nil => intro _ k p h; simp at h
  | cons e rest ih =>
    obtain ⟨k0, p0⟩ := e
    intro hnd k p h
    simp only [idxKeys, List.map_cons, List.nodup_cons] at hnd
    rcases List.mem_cons.mp h with h1 | h2
    · obtain ⟨rfl, rfl⟩ := Prod.mk.injEq k p k0 p0 ▸ h1
      rw [idxGet, if_pos rfl]
    · rw [idxGet]
      by_cases he : k0 = k
      · exfalso
        subst he
        exact hnd.1 (List.mem_map.mpr ⟨(k0, p), h2, rfl⟩)
      · rw [if_neg he]
        exact ih hnd.2 h2

theorem replayFold_nil (idx : List (String × Nat)) (obs : Nat) :
    replayFold [] idx obs = Except.ok (idx, obs) := rfl

theorem replayFold_err (e : Error) (rest : List (Except Error (Command × Nat)))
    (idx : List (String × Nat)) (obs : Nat) :
    replayFold (Except.error e :: rest) idx obs = Except.error e := rfl

theorem replayFold_set (k v : String) (p : Nat) (rest : List (Except Error (Command × Nat)))
    (idx : List (String × Nat)) (obs : Nat) :
    replayFold (Except.ok (Command.set k v, p) :: rest) idx obs =
      replayFold rest (idxInsert idx k p).2
        (if (idxGet idx k).isSome then obs + 1 else obs) := by
  rw [replayFold]
  rw [← idxInsert_fst idx k p]

theorem replayFold_rem {k : String} {p : Nat} (rest : List (Except Error (Command × Nat)))
    (idx : List (String × Nat)) (obs : Nat) :
    replayFold (Except.ok (Command.remove k, p) :: rest) idx obs =
      (match idxRemove idx k with
       | (some _, idx') => replayFold rest idx' (obs + 1)
       | (none, _) => Except.error Error.keyNotFound) := by
  rw [replayFold]

theorem replayFold_rem_some {k : String} {idx : List (String × Nat)} {q : Nat}
    {idx' : List (String × Nat)} (h : idxRemove idx k = (some q, idx'))
    (p : Nat) (rest : List (Except Error (Command × Nat))) (obs : Nat) :
    replayFold (Except.ok (Command.remove k, p) :: rest) idx obs =
      replayFold rest idx' (obs + 1) := by
  rw [replayFold_rem, h]

theorem replayFold_rem_none {k : String} {idx idx2 : List (String × Nat)}
    (h : idxRemove idx k = (none, idx2))
    (p : Nat) (rest : List (Except Error (Command × Nat))) (obs : Nat) :
    replayFold (Except.ok (Command.remove k, p) :: rest) idx obs =
      Except.error Error.keyNotFound := by
  rw [replayFold_rem, h]

theorem replayFold_append :
    ∀ (l1 l2 : List (Except Error (Command × Nat))) (idx : List (String × Nat)) (obs : Nat),
      replayFold (l1 ++ l2) idx obs =
        (match replayFold l1 idx obs with
         | Except.ok (i, o) => replayFold l2 i o
         | Except.error e => Except.error e) := by
  intro l1
  induction l1 with
  | nil => intro l2 idx obs; rfl
  | cons it rest ih =>
    intro l2 idx obs
    match it with
    | Except.error e => rfl
    | Except.ok (Command.set k v, p) =>
      simp only [List.cons_append]
      rw [replayFold_set, replayFold_set, ih]
    | Except.ok (Command.remove k, p) =>
      simp only [List.cons_append]
      rw [replayFold_rem, replayFold_rem]
      cases hR : idxRemove idx k with
      | mk old idx2 =>
        cases old with
        | none => rfl
        | some q => exact ih l2 idx2 (obs + 1)

theorem itemsFrom_append : ∀ (rs1 rs2 : List Command) (pos : Nat),
    itemsFrom pos (rs1 ++ rs2) =
      itemsFrom pos rs1 ++ itemsFrom (pos + (encList rs1).length) rs2 := by
  intro rs1
  induction rs1 with
  | nil => intro rs2 pos; simp [itemsFrom, encList]
  | cons c rest ih =>
    intro rs2 pos
    rw [List.cons_append, itemsFrom, itemsFrom, ih, encList]
    have h : pos + (encode c ++ encList rest).length =
        pos + (encode c).length + (encList rest).length := by
      simp [List.length_append]
      omega
    rw [h]
    simp

theorem replayFold_nodup :
    ∀ (items : List (Command × Nat)) (idx : List (String × Nat)) (obs : Nat)
      (idx' : List (String × Nat)) (obs' : Nat),
      replayFold (items.map Except.ok) idx obs = Except.ok (idx', obs') →
      (idxKeys idx).Nodup → (idxKeys idx').Nodup := by
  intro items
  induction items with
  | nil => intro idx obs idx' obs' h hnd; cases h; exact hnd
  | cons it rest ih =>
    intro idx obs idx' obs' h hnd
    obtain ⟨c, p⟩ := it
    match c with
    | Command.set k v =>
      rw [List.map_cons, replayFold_set] at h
      exact ih _ _ _ _ h (idxKeys_insert_nodup k p hnd)
    | Command.remove k =>
      rw [List.map_cons, replayFold_rem] at h
      cases hR : idxRemove idx k with
      | mk old idx2 =>
        rw [hR] at h
        cases old with
        | none => cases h
        | some q =>
          have : (idxKeys idx2).Nodup := by
            have := @idxKeys_remove_nodup idx k hnd
            rw [hR] at this
            exact this
          exact ih _ _ _ _ h this

theorem replayFold_prov :
    ∀ (items : List (Command × Nat)) (idx : List (String × Nat)) (obs : Nat)
      (idx' : List (String × Nat)) (obs' : Nat),
      replayFold (items.map Except.ok) idx obs = Except.ok (idx', obs') →
      (idxKeys idx).Nodup →
      ∀ k q, idxGet idx' k = some q →
        (∃ v, (Command.set k v, q) ∈ items) ∨ idxGet idx k = some q := by
  intro items
  induction items with
  | nil =>
    intro idx obs idx' obs' h _ k q hq
    cases h
    exact Or.inr hq
  | cons it rest ih =>
    intro idx obs idx' obs' h hnd k q hq
    obtain ⟨c, p⟩ := it
    match c with
    | Command.set k0 v0 =>
      rw [List.map_cons, replayFold_set] at h
      rcases ih _ _ _ _ h (idxKeys_insert_nodup k0 p hnd) k q hq with ⟨v, hv⟩ | hbase
      · exact Or.inl ⟨v, List.mem_cons_of_mem _ hv⟩
      · by_cases he : k = k0
        · subst he
          rw [idxGet_insert_self] at hbase
          cases hbase
          exact Or.inl ⟨v0, List.mem_cons_self _ _⟩
        · rw [idxGet_insert_ne (fun hh => he hh.symm)] at hbase
          exact Or.inr hbase
    | Command.remove k0 =>
      rw [List.map_cons, replayFold_rem] at h
      cases hR : idxRemove idx k0 with
      | mk old idx2 =>
        rw [hR] at h
        cases old with
        | none => cases h
        | some q0 =>
          have hnd2 : (idxKeys idx2).Nodup := by
            have := @idxKeys_remove_nodup idx k0 hnd
            rw [hR] at this
            exact this
          rcases ih _ _ _ _ h hnd2 k q hq with ⟨v, hv⟩ | hbase
          · exact Or.inl ⟨v, List.mem_cons_of_mem _ hv⟩
          · by_cases he : k = k0
            · subst he
              exfalso
              have := @idxGet_remove_self idx k hnd
              rw [hR] at this
              rw [this] at hbase
              cases hbase
            · rw [show idx2 = (idxRemove idx k0).2 by rw [hR]] at hbase
              rw [idxGet_remove_ne (fun hh => he hh.symm)] at hbase
              exact Or.inr hbase

theorem idxGet_some_mem_pair : ∀ {idx : List (String × Nat)} {k : String} {p : Nat},
    idxGet idx k = some p → (k, p) ∈ idx := by
  intro idx
  induction idx with
  | nil => intro k p h; cases h
  | cons e rest ih =>
    obtain ⟨k0, p0⟩ := e
    intro k p h
    rw [idxGet] at h
    by_cases he : k0 = k
    · rw [if_pos he] at h
      cases h
      subst he
      exact List.mem_cons_self _ _
    · rw [if_neg he] at h
      exact List.mem_cons_of_mem _ (ih h)

theorem mem_key_of_mem_idxKeys {idx : List (String × Nat)} {k : String}
    (h : k ∈ idxKeys idx) : ∃ p, (k, p) ∈ idx := by
  obtain ⟨⟨k', p⟩, hm, he⟩ := List.mem_map.mp h
  simp only at he
  subst he
  exact ⟨p, hm⟩

/-- The engine invariant: the state is exactly what `KvStore::open` rebuilds
from its own log, and the log is a plain concatenation of canonical records
(the only shape the engine itself ever writes). -/
def StoreInv (s : KvStore) : Prop :=
  ∃ rs : List Command, s.log = encList rs ∧
    replayFold ((itemsFrom 0 rs).map Except.ok) [] 0 =
      Except.ok (s.in_memory_index, s.obsolete_entries)

theorem openStore_of_inv {s : KvStore} (h : StoreInv s) :
    KvStore.openStore s.log = Except.ok s := by
  obtain ⟨rs, hlog, hfold⟩ := h
  rw [KvStore.openStore, hlog, replayFrom_encList, hfold, ← hlog]

theorem inv_nodup {s : KvStore} (h : StoreInv s) : (idxKeys s.in_memory_index).Nodup := by
  obtain ⟨rs, hlog, hfold⟩ := h
  exact replayFold_nodup _ _ _ _ _ hfold (by simp [idxKeys])

theorem inv_ptr_decomp {s : KvStore} (h : StoreInv s) {k : String} {q : Nat}
    (hq : idxGet s.in_memory_index k = some q) :
    ∃ v pre t, s.log = pre ++ encode (Command.set k v) ++ t ∧ q = pre.length := by
  obtain ⟨rs, hlog, hfold⟩ := h
  rcases replayFold_prov _ _ _ _ _ hfold (by simp [idxKeys]) k q hq with ⟨v, hv⟩ | hbase
  · obtain ⟨rs1, rs2, hsplit, hq'⟩ := itemsFrom_mem hv
    refine ⟨v, encList rs1, encList rs2, ?_, by omega⟩
    rw [hlog, hsplit, encList_append, encList, List.append_assoc]
  · cases hbase

theorem inv_read {s : KvStore} (h : StoreInv s) {k : String} {q : Nat}
    (hq : idxGet s.in_memory_index k = some q) :
    ∃ v, Log.read s.log q = Except.ok (Command.set k v) := by
  obtain ⟨v, pre, t, hdec, hql⟩ := inv_ptr_decomp h hq
  exact ⟨v, hql ▸ read_at hdec⟩

/-- `Inv` for the state that `open` yields on an empty directory. -/
theorem inv_empty : StoreInv emptyStore := ⟨[], rfl, rfl⟩

theorem compactLoop_fold :
    ∀ (entries : List (String × Nat)) (log : List Char) (cidx : List (String × Nat))
      (clog : List Char) (obs : Nat),
      (∀ e ∈ entries, ∃ v, Log.read log e.2 = Except.ok (Command.set e.1 v)) →
      (∀ e ∈ entries, e.1 ∉ idxKeys cidx) →
      (idxKeys entries).Nodup →
      ∃ crs cidx',
        KvStore.compactLoop log entries cidx clog = Except.ok (cidx', clog ++ encList crs) ∧
        replayFold ((itemsFrom clog.length crs).map Except.ok) cidx obs =
          Except.ok (cidx', obs) ∧
        (∀ k, k ∉ idxKeys entries → idxGet cidx' k = idxGet cidx k) ∧
        (∀ k p, (k, p) ∈ entries → ∃ v q pre t,
          Log.read log p = Except.ok (Command.set k v) ∧
          idxGet cidx' k = some q ∧
          clog ++ encList crs = pre ++ encode (Command.set k v) ++ t ∧
          q = pre.length) := by
  intro entries
  induction entries with
  | nil =>
    intro log cidx clog obs _ _ _
    refine ⟨[], cidx, ?_, ?_, fun k _ => rfl, fun k p hm => absurd hm (by simp)⟩
    · rw [KvStore.compactLoop, encList, List.append_nil]
    · rw [itemsFrom, List.map_nil, replayFold_nil]
  | cons e rest ih =>
    obtain ⟨k, p⟩ := e
    intro log cidx clog obs h1 h2 hnd
    obtain ⟨v, hread⟩ := h1 (k, p) (List.mem_cons_self _ _)
    have hkeys : idxKeys ((k, p) :: rest) = k :: idxKeys rest := rfl
    rw [hkeys, List.nodup_cons] at hnd
    have hkcidx : k ∉ idxKeys cidx := h2 (k, p) (List.mem_cons_self _ _)
    have hkeys2 : idxKeys (idxInsert cidx k clog.length).2 = idxKeys cidx ++ [k] := by
      rw [idxKeys_insert, if_neg hkcidx]
    obtain ⟨crs, cidx', hLoop, hFold, hPres, hEnt⟩ :=
      ih log (idxInsert cidx k clog.length).2 (clog ++ encode (Command.set k v)) obs
        (fun e he => h1 e (List.mem_cons_of_mem _ he))
        (fun e he => by
          rw [hkeys2]
          simp only [List.mem_append, List.mem_singleton, not_or]
          refine ⟨h2 e (List.mem_cons_of_mem _ he), ?_⟩
          intro hek
          exact hnd.1 (hek ▸ List.mem_map.mpr ⟨e, he, rfl⟩))
        hnd.2
    refine ⟨Command.set k v :: crs, cidx', ?_, ?_, ?_, ?_⟩
    · rw [KvStore.compactLoop, hread]
      simp only [Log.appendCommand]
      rw [hLoop, encList]
      simp [List.append_assoc]
    · rw [itemsFrom, List.map_cons, replayFold_set,
        idxGet_none_of_not_mem hkcidx]
      simp only [Option.isSome_none, Bool.false_eq_true, if_false, ite_false]
      have hlen : (clog ++ encode (Command.set k v)).length =
          clog.length + (encode (Command.set k v)).length := by simp
      rw [← hlen]
      exact hFold
    · intro k' hk'
      rw [hkeys, List.mem_cons, not_or] at hk'
      rw [hPres k' (fun hm => hk'.2 hm), idxGet_insert_ne (fun hh => hk'.1 hh.symm)]
    · intro k1 p1 hm
      rcases List.mem_cons.mp hm with hhead | htail
      · have hk1 : k1 = k := congrArg Prod.fst hhead
        have hp1 : p1 = p := congrArg Prod.snd hhead
        subst hk1; subst hp1
        refine ⟨v, clog.length, clog, encList crs, hread, ?_, ?_, rfl⟩
        · rw [hPres k1 (fun hm2 => hnd.1 hm2), idxGet_insert_self]
        · rw [encList]
          simp [List.append_assoc]
      · obtain ⟨v1, q1, pre1, t1, hr1, hg1, hdec1, hq1⟩ := hEnt k1 p1 htail
        refine ⟨v1, q1, pre1, t1, hr1, hg1, ?_, hq1⟩
        rw [encList, ← List.append_assoc, ← hdec1]

theorem get_none {s : KvStore} {k : String} (hg : idxGet s.in_memory_index k = none) :
    KvStore.get s k = (s, Except.ok none) := by
  rw [KvStore.get.eq_def, hg]

theorem get_some_set {s : KvStore} {k k0 v : String} {p : Nat}
    (hg : idxGet s.in_memory_index k = some p)
    (hr : Log.read s.log p = Except.ok (Command.set k0 v)) :
    KvStore.get s k = (s, Except.ok (some v)) := by
  simp [KvStore.get, hg, hr]

theorem get_some_rem {s : KvStore} {k k0 : String} {p : Nat}
    (hg : idxGet s.in_memory_index k = some p)
    (hr : Log.read s.log p = Except.ok (Command.remove k0)) :
    KvStore.get s k = (s, Except.error Error.logFileCorrupted) := by
  simp [KvStore.get, hg, hr]

theorem get_some_err {s : KvStore} {k : String} {p : Nat} {e : Error}
    (hg : idxGet s.in_memory_index k = some p)
    (hr : Log.read s.log p = Except.error e) :
    KvStore.get s k = (s, Except.error e) := by
  simp [KvStore.get, hg, hr]

theorem inv_not_mem_keys {s : KvStore} (h : StoreInv s) {k : String}
    (hg : idxGet s.in_memory_index k = none) : k ∉ idxKeys s.in_memory_index := by
  intro hm
  obtain ⟨p, hp⟩ := mem_key_of_mem_idxKeys hm
  rw [mem_idxGet (inv_nodup h) hp] at hg
  cases hg

theorem inv_compact {s : KvStore} (h : StoreInv s) :
    (s.compact).2 = Except.ok () ∧
    StoreInv (s.compact).1 ∧
    (s.compact).1.obsolete_entries = 0 ∧
    ∀ k, ((s.compact).1.get k).2 = (s.get k).2 := by
  have hnd := inv_nodup h
  have h1 : ∀ e ∈ s.in_memory_index, ∃ v, Log.read s.log e.2 = Except.ok (Command.set e.1 v) := by
    intro e he
    obtain ⟨k, p⟩ := e
    exact inv_read h (mem_idxGet hnd he)
  obtain ⟨crs, cidx', hLoop, hFold, hPres, hEnt⟩ :=
    compactLoop_fold s.in_memory_index s.log [] [] 0 h1 (by simp [idxKeys]) hnd
  have hcomp : s.compact = (⟨cidx', encList crs, 0⟩, Except.ok ()) := by
    rw [KvStore.compact, hLoop]
    rfl
  refine ⟨by rw [hcomp], ⟨crs, by rw [hcomp], by rw [hcomp]; simpa using hFold⟩,
    by rw [hcomp], ?_⟩
  intro k
  rw [hcomp]
  cases hg : idxGet s.in_memory_index k with
  | none =>
    have hk : k ∉ idxKeys s.in_memory_index := inv_not_mem_keys h hg
    have hg' : idxGet cidx' k = none := by rw [hPres k hk]; rfl
    have e1 : KvStore.get s k = (s, Except.ok none) := get_none hg
    have e2 : KvStore.get ⟨cidx', encList crs, 0⟩ k = (⟨cidx', encList crs, 0⟩, Except.ok none) :=
      get_none (s := ⟨cidx', encList crs, 0⟩) hg'
    rw [e1, e2]
  | some p =>
    obtain ⟨v, hr⟩ := inv_read h hg
    obtain ⟨v1, q, pre, t, hr1, hg', hdec, hq⟩ := hEnt k p (idxGet_some_mem_pair hg)
    rw [hr] at hr1
    have hv : v1 = v := by
      have h2 := (Except.ok.inj hr1 : Command.set k v = Command.set k v1)
      cases h2
      rfl
    subst hv
    have hread2 : Log.read (encList crs) q = Except.ok (Command.set k v1) := by
      rw [List.nil_append] at hdec
      exact hq ▸ read_at hdec
    have e1 : KvStore.get s k = (s, Except.ok (some v1)) := get_some_set hg hr
    have e2 : KvStore.get ⟨cidx', encList crs, 0⟩ k =
        (⟨cidx', encList crs, 0⟩, Except.ok (some v1)) :=
      get_some_set (s := ⟨cidx', encList crs, 0⟩) hg' hread2
    rw [e1, e2]

/-- The state `KvStore::set` has built right before its compaction check:
record appended, pointer inserted, counter bumped on overwrite. -/
def setPre (s : KvStore) (k v : String) : KvStore :=
  ⟨(idxInsert s.in_memory_index k s.log.length).2,
   s.log ++ encode (Command.set k v),
   if (idxGet s.in_memory_index k).isSome then s.obsolete_entries + 1
   else s.obsolete_entries⟩

/-- The state `KvStore::remove` has built right before its compaction check
(for a present key). -/
def removePre (s : KvStore) (k : String) : KvStore :=
  ⟨(idxRemove s.in_memory_index k).2, s.log ++ encode (Command.remove k),
   s.obsolete_entries + 1⟩

theorem set_eq (s : KvStore) (k v : String) :
    KvStore.set s k v =
      if (setPre s k v).shouldCompact then (setPre s k v).compact
      else (setPre s k v, Except.ok ()) := by
  rw [KvStore.set]
  rcases hI : idxInsert s.in_memory_index k s.log.length with ⟨old, idx2⟩
  have h1 : old = idxGet s.in_memory_index k := by
    rw [← idxInsert_fst s.in_memory_index k s.log.length, hI]
  have h2 : idx2 = (idxInsert s.in_memory_index k s.log.length).2 := by rw [hI]
  simp only [Log.appendCommand, hI, setPre, ← h1, ← h2]

theorem remove_eq_absent {s : KvStore} {k : String}
    (h : idxGet s.in_memory_index k = none) :
    KvStore.remove s k = (s, Except.error Error.keyNotFound) := by
  rw [KvStore.remove, KvStore.removeCore]
  rcases hR : idxRemove s.in_memory_index k with ⟨old, idx2⟩
  have h1 : old = none := by
    rw [show old = (idxRemove s.in_memory_index k).1 from by rw [hR], idxRemove_fst, h]
  subst h1
  rfl

theorem remove_eq_present {s : KvStore} {k : String} {p : Nat}
    (h : idxGet s.in_memory_index k = some p) :
    KvStore.remove s k =
      if (removePre s k).shouldCompact then (removePre s k).compact
      else (removePre s k, Except.ok ()) := by
  rw [KvStore.remove, KvStore.removeCore]
  rcases hR : idxRemove s.in_memory_index k with ⟨old, idx2⟩
  have h1 : old = some p := by
    rw [show old = (idxRemove s.in_memory_index k).1 from by rw [hR], idxRemove_fst, h]
  subst h1
  have h2 : idx2 = (idxRemove s.in_memory_index k).2 := by rw [hR]
  simp only [Log.appendCommand, removePre, ← h2]
  rfl

theorem inv_setPre {s : KvStore} (h : StoreInv s) (k v : String) :
    StoreInv (setPre s k v) := by
  obtain ⟨rs, hlog, hfold⟩ := h
  refine ⟨rs ++ [Command.set k v], ?_, ?_⟩
  · show s.log ++ encode (Command.set k v) = _
    rw [encList_append, hlog, encList, encList, List.append_nil]
  · rw [itemsFrom_append, List.map_append, replayFold_append, hfold]
    show replayFold _ _ _ = _
    rw [itemsFrom, itemsFrom, List.map_cons, List.map_nil, replayFold_set, replayFold_nil]
    have hL : s.log.length = (encList rs).length := by rw [hlog]
    show Except.ok _ = Except.ok (_, _)
    rw [show (0 + (encList rs).length) = s.log.length by omega]
    rfl

theorem inv_removePre {s : KvStore} (h : StoreInv s) {k : String} {p : Nat}
    (hp : idxGet s.in_memory_index k = some p) :
    StoreInv (removePre s k) := by
  obtain ⟨rs, hlog, hfold⟩ := h
  refine ⟨rs ++ [Command.remove k], ?_, ?_⟩
  · show s.log ++ encode (Command.remove k) = _
    rw [encList_append, hlog, encList, encList, List.append_nil]
  · rw [itemsFrom_append, List.map_append, replayFold_append, hfold]
    show replayFold _ _ _ = _
    rw [itemsFrom, itemsFrom, List.map_cons, List.map_nil]
    rcases hR : idxRemove s.in_memory_index k with ⟨old, idx2⟩
    have h1 : old = some p := by
      rw [show old = (idxRemove s.in_memory_index k).1 from by rw [hR], idxRemove_fst, hp]
    subst h1
    rw [replayFold_rem_some hR, replayFold_nil]
    show Except.ok _ = Except.ok ((idxRemove s.in_memory_index k).2, _)
    rw [hR]
    rfl


theorem inv_set {s : KvStore} (h : StoreInv s) (k v : String) :
    (s.set k v).2 = Except.ok () ∧ StoreInv (s.set k v).1 ∧
    ∀ k', ((s.set k v).1.get k').2 = ((setPre s k v).get k').2 := by
  rw [set_eq]
  by_cases hc : (setPre s k v).shouldCompact
  · rw [if_pos hc]
    obtain ⟨c1, c2, _, c4⟩ := inv_compact (inv_setPre h k v)
    exact ⟨c1, c2, c4⟩
  · rw [if_neg hc]
    exact ⟨rfl, inv_setPre h k v, fun k' => rfl⟩

theorem inv_remove_present {s : KvStore} (h : StoreInv s) {k : String} {p : Nat}
    (hp : idxGet s.in_memory_index k = some p) :
    (s.remove k).2 = Except.ok () ∧ StoreInv (s.remove k).1 ∧
    ∀ k', ((s.remove k).1.get k').2 = ((removePre s k).get k').2 := by
  rw [remove_eq_present hp]
  by_cases hc : (removePre s k).shouldCompact
  · rw [if_pos hc]
    obtain ⟨c1, c2, _, c4⟩ := inv_compact (inv_removePre h hp)
    exact ⟨c1, c2, c4⟩
  · rw [if_neg hc]
    exact ⟨rfl, inv_removePre h hp, fun k' => rfl⟩

theorem setPre_get_self (s : KvStore) (k v : String) :
    ((setPre s k v).get k).2 = Except.ok (some v) := by
  have hg : idxGet (setPre s k v).in_memory_index k = some s.log.length :=
    idxGet_insert_self s.in_memory_index k s.log.length
  have hdec : (setPre s k v).log = s.log ++ encode (Command.set k v) ++ [] := by
    show s.log ++ encode (Command.set k v) = _
    rw [List.append_nil]
  have hr : Log.read (setPre s k v).log s.log.length = Except.ok (Command.set k v) :=
    read_at hdec
  rw [get_some_set hg hr]

theorem setPre_get_other {s : KvStore} (h : StoreInv s) {k' k : String} (hne : ¬k' = k)
    (v : String) : ((setPre s k v).get k').2 = (s.get k').2 := by
  have hg : idxGet (setPre s k v).in_memory_index k' = idxGet s.in_memory_index k' :=
    idxGet_insert_ne (fun hh => hne hh.symm) s.in_memory_index s.log.length
  cases hq : idxGet s.in_memory_index k' with
  | none =>
    rw [get_none (hg.trans hq), get_none hq]
  | some q =>
    obtain ⟨v0, pre, t, hdec, hql⟩ := inv_ptr_decomp h hq
    have read1 : Log.read s.log q = Except.ok (Command.set k' v0) := hql ▸ read_at hdec
    have hdec2 : (setPre s k v).log = pre ++ encode (Command.set k' v0) ++ (t ++ encode (Command.set k v)) := by
      show s.log ++ encode (Command.set k v) = _
      rw [hdec]
      simp [List.append_assoc]
    have read2 : Log.read (setPre s k v).log q = Except.ok (Command.set k' v0) :=
      hql ▸ read_at hdec2
    rw [get_some_set (hg.trans hq) read2, get_some_set hq read1]

theorem removePre_idx_none {s : KvStore} (h : StoreInv s) (k : String) :
    idxGet (removePre s k).in_memory_index k = none :=
  idxGet_remove_self k (inv_nodup h)

theorem removePre_get_other {s : KvStore} (h : StoreInv s) {k' k : String} (hne : ¬k' = k) :
    ((removePre s k).get k').2 = (s.get k').2 := by
  have hg : idxGet (removePre s k).in_memory_index k' = idxGet s.in_memory_index k' :=
    idxGet_remove_ne (fun hh => hne hh.symm) s.in_memory_index
  cases hq : idxGet s.in_memory_index k' with
  | none => rw [get_none (hg.trans hq), get_none hq]
  | some q =>
    obtain ⟨v0, pre, t, hdec, hql⟩ := inv_ptr_decomp h hq
    have read1 : Log.read s.log q = Except.ok (Command.set k' v0) := hql ▸ read_at hdec
    have hdec2 : (removePre s k).log = pre ++ encode (Command.set k' v0) ++ (t ++ encode (Command.remove k)) := by
      show s.log ++ encode (Command.remove k) = _
      rw [hdec]
      simp [List.append_assoc]
    have read2 : Log.read (removePre s k).log q = Except.ok (Command.set k' v0) :=
      hql ▸ read_at hdec2
    rw [get_some_set (hg.trans hq) read2, get_some_set hq read1]

theorem get_fst (s : KvStore) (k : String) : (KvStore.get s k).1 = s := by
  cases hg : idxGet s.in_memory_index k with
  | none => rw [get_none hg]
  | some p =>
    cases hr : Log.read s.log p with
    | ok c =>
      cases c with
      | set a b => rw [get_some_set hg hr]
      | remove a => rw [get_some_rem hg hr]
    | error e => rw [get_some_err hg hr]

theorem get_ok_none_idx {s : KvStore} {k : String}
    (hk : (KvStore.get s k).2 = Except.ok none) :
    idxGet s.in_memory_index k = none := by
  cases hg : idxGet s.in_memory_index k with
  | none => rfl
  | some p =>
    exfalso
    cases hr : Log.read s.log p with
    | ok c =>
      cases c with
      | set a b => rw [get_some_set hg hr] at hk; cases hk
      | remove a => rw [get_some_rem hg hr] at hk; cases hk
    | error e => rw [get_some_err hg hr] at hk; cases hk

theorem inv_applyOp {s : KvStore} (h : StoreInv s) (op : Op) :
    StoreInv (applyOp s op) := by
  cases op with
  | opSet k v => exact (inv_set h k v).2.1
  | opRemove k =>
    show StoreInv (s.remove k).1
    cases hq : idxGet s.in_memory_index k with
    | none => rw [remove_eq_absent hq]; exact h
    | some p => exact (inv_remove_present h hq).2.1
  | opGet k =>
    show StoreInv (s.get k).1
    rw [get_fst]
    exact h

theorem inv_runOps {s : KvStore} (h : StoreInv s) (ops : List Op) :
    StoreInv (runOps s ops) := by
  induction ops generalizing s with
  | nil => exact h
  | cons op rest ih => exact ih (inv_applyOp h op)

/-- C1: on an open engine (a state satisfying the engine invariant), after a
successful `set(K,V)`, `get(K)` returns `Some(V)`, and `get(K')` for every
other key `K'` returns the same result as before the `set`. -/
theorem c1_set_get {s : KvStore} (h : StoreInv s) (K V : String)
    (_hok : (s.set K V).2 = Except.ok ()) :
    ((s.set K V).1.get K).2 = Except.ok (some V) ∧
    ∀ K', K' ≠ K → ((s.set K V).1.get K').2 = (s.get K').2 := by
  obtain ⟨-, -, hget⟩ := inv_set h K V
  constructor
  · rw [hget K, setPre_get_self]
  · intro K' hne
    rw [hget K', setPre_get_other h hne V]

theorem c1_witness :
    StoreInv (runOps emptyStore [Op.opSet "b" "2"]) ∧
    ((runOps emptyStore [Op.opSet "b" "2"]).set "a" "1").2 = Except.ok () ∧
    (((runOps emptyStore [Op.opSet "b" "2"]).set "a" "1").1.get "a").2 = Except.ok (some "1") ∧
    (((runOps emptyStore [Op.opSet "b" "2"]).set "a" "1").1.get "b").2 =
      ((runOps emptyStore [Op.opSet "b" "2"]).get "b").2 := by
  have h : StoreInv (runOps emptyStore [Op.opSet "b" "2"]) := inv_runOps inv_empty _
  have hok : ((runOps emptyStore [Op.opSet "b" "2"]).set "a" "1").2 = Except.ok () := by decide
  exact ⟨h, hok, (c1_set_get h "a" "1" hok).1,
    (c1_set_get h "a" "1" hok).2 "b" (by decide)⟩

/-- C2: for every operation sequence `σ` run from the fresh engine state,
reopening the resulting log yields an engine whose `get` results agree with
the original engine on every key (the log replay reconstructs the same
observable state; in fact, in this model, the identical state). -/
theorem c2_reopen (σ : List Op) {s' : KvStore}
    (h : KvStore.openStore (runOps emptyStore σ).log = Except.ok s') :
    ∀ K, (s'.get K).2 = ((runOps emptyStore σ).get K).2 := by
  have hinv : StoreInv (runOps emptyStore σ) := inv_runOps inv_empty σ
  rw [openStore_of_inv hinv] at h
  cases h
  intro K
  rfl

theorem c2_witness :
    KvStore.openStore (runOps emptyStore [Op.opSet "a" "1", Op.opSet "a" "2"]).log =
      Except.ok (⟨[("a", 31)],
        encode (Command.set "a" "1") ++ encode (Command.set "a" "2"), 1⟩ : KvStore) ∧
    ((⟨[("a", 31)], encode (Command.set "a" "1") ++ encode (Command.set "a" "2"), 1⟩ :
        KvStore).get "a").2 =
      ((runOps emptyStore [Op.opSet "a" "1", Op.opSet "a" "2"]).get "a").2 := by
  have h : KvStore.openStore (runOps emptyStore [Op.opSet "a" "1", Op.opSet "a" "2"]).log =
      Except.ok (⟨[("a", 31)],
        encode (Command.set "a" "1") ++ encode (Command.set "a" "2"), 1⟩ : KvStore) := by
    decide
  exact ⟨h, c2_reopen [Op.opSet "a" "1", Op.opSet "a" "2"] h "a"⟩

/-- C3: `remove(K)` on an absent key fails with `KeyNotFound`, appends
nothing and leaves the whole state (index, log, counter) unchanged; after a
successful `remove(K)`, `get(K)` is `None` and a second `remove(K)` fails
with `KeyNotFound`. -/
theorem c3_remove {s : KvStore} (h : StoreInv s) (K : String) :
    (idxGet s.in_memory_index K = none →
      s.remove K = (s, Except.error Error.keyNotFound)) ∧
    ((s.remove K).2 = Except.ok () →
      ((s.remove K).1.get K).2 = Except.ok none ∧
      ((s.remove K).1.remove K).2 = Except.error Error.keyNotFound) := by
  constructor
  · exact remove_eq_absent
  · intro hok
    cases hq : idxGet s.in_memory_index K with
    | none =>
      rw [remove_eq_absent hq] at hok
      cases hok
    | some p =>
      obtain ⟨-, -, hget⟩ := inv_remove_present h hq
      have hnone : ((s.remove K).1.get K).2 = Except.ok none := by
        rw [hget K, get_none (removePre_idx_none h K)]
      refine ⟨hnone, ?_⟩
      have hidx : idxGet (s.remove K).1.in_memory_index K = none := get_ok_none_idx hnone
      rw [remove_eq_absent hidx]

theorem c3_witness :
    StoreInv (runOps emptyStore [Op.opSet "x" "y"]) ∧
    ((runOps emptyStore [Op.opSet "x" "y"]).remove "z" =
      (runOps emptyStore [Op.opSet "x" "y"], Except.error Error.keyNotFound)) ∧
    ((runOps emptyStore [Op.opSet "x" "y"]).remove "x").2 = Except.ok () ∧
    (((runOps emptyStore [Op.opSet "x" "y"]).remove "x").1.get "x").2 = Except.ok none ∧
    (((runOps emptyStore [Op.opSet "x" "y"]).remove "x").1.remove "x").2 =
      Except.error Error.keyNotFound := by
  have h : StoreInv (runOps emptyStore [Op.opSet "x" "y"]) := inv_runOps inv_empty _
  have habs := (c3_remove h "z").1 (by decide)
  have hok : ((runOps emptyStore [Op.opSet "x" "y"]).remove "x").2 = Except.ok () := by decide
  obtain ⟨h1, h2⟩ := (c3_remove h "x").2 hok
  exact ⟨h, habs, hok, h1, h2⟩

/-- C4: compaction (on a state satisfying the engine invariant) succeeds,
preserves the `get` result of every key, and leaves `obsolete_entries = 0`. -/
theorem c4_compaction {s : KvStore} (h : StoreInv s) :
    (s.compact).2 = Except.ok () ∧
    (∀ K, ((s.compact).1.get K).2 = (s.get K).2) ∧
    (s.compact).1.obsolete_entries = 0 := by
  obtain ⟨c1, -, c3, c4⟩ := inv_compact h
  exact ⟨c1, c4, c3⟩

theorem c4_witness :
    StoreInv (runOps emptyStore [Op.opSet "a" "1", Op.opSet "a" "2"]) ∧
    ((runOps emptyStore [Op.opSet "a" "1", Op.opSet "a" "2"]).compact).2 = Except.ok () ∧
    (((runOps emptyStore [Op.opSet "a" "1", Op.opSet "a" "2"]).compact).1.get "a").2 =
      ((runOps emptyStore [Op.opSet "a" "1", Op.opSet "a" "2"]).get "a").2 ∧
    ((runOps emptyStore [Op.opSet "a" "1", Op.opSet "a" "2"]).compact).1.obsolete_entries = 0 := by
  have h : StoreInv (runOps emptyStore [Op.opSet "a" "1", Op.opSet "a" "2"]) :=
    inv_runOps inv_empty _
  exact ⟨h, (c4_compaction h).1, (c4_compaction h).2.1 "a", (c4_compaction h).2.2⟩

/-- C8: `get(K)` returns `None` when `K` is absent from the index, and the
error `LogFileCorrupted` when the record decoded at the indexed pointer is
a `Remove` record. -/
theorem c8_get_errors (s : KvStore) (K : String) :
    (idxGet s.in_memory_index K = none → (s.get K).2 = Except.ok none) ∧
    (∀ q k', idxGet s.in_memory_index K = some q →
      Log.read s.log q = Except.ok (Command.remove k') →
      (s.get K).2 = Except.error Error.logFileCorrupted) := by
  constructor
  · intro hg
    rw [get_none hg]
  · intro q k' hg hr
    rw [get_some_rem hg hr]

theorem c8_witness :
    ((⟨[("a", 0)], encode (Command.remove "a"), 0⟩ : KvStore).get "z").2 = Except.ok none ∧
    ((⟨[("a", 0)], encode (Command.remove "a"), 0⟩ : KvStore).get "a").2 =
      Except.error Error.logFileCorrupted := by
  refine ⟨(c8_get_errors _ "z").1 (by decide),
    (c8_get_errors (⟨[("a", 0)], encode (Command.remove "a"), 0⟩ : KvStore) "a").2 0 "a"
      (by decide) (by decide)⟩

/-- C9: `get` never changes the engine state — the index, the obsolete
counter and the log content after a `get` are those before it, whatever the
result. -/
theorem c9_get_frame (s : KvStore) (K : String) : (KvStore.get s K).1 = s :=
  get_fst s K

/-- C10: `remove(K)` on a present key deletes `K` from the in-memory index
*before* appending the `Remove` record; if the append fails, the error is
returned with `K` already gone from the index (given the hash-map key
uniqueness), the log unchanged (no `Remove` record written), and the
counter not yet incremented. -/
theorem c10_remove_order {s : KvStore} {K : String} {p : Nat}
    (hp : idxGet s.in_memory_index K = some p) :
    KvStore.removeCore s K false =
      ({ s with in_memory_index := (idxRemove s.in_memory_index K).2 },
        Except.error Error.io) ∧
    ((idxKeys s.in_memory_index).Nodup →
      idxGet (KvStore.removeCore s K false).1.in_memory_index K = none) ∧
    (KvStore.removeCore s K false).1.log = s.log ∧
    (KvStore.removeCore s K false).1.obsolete_entries = s.obsolete_entries := by
  have heq : KvStore.removeCore s K false =
      ({ s with in_memory_index := (idxRemove s.in_memory_index K).2 },
        Except.error Error.io) := by
    rw [KvStore.removeCore.eq_def]
    rcases hR : idxRemove s.in_memory_index K with ⟨old, idx2⟩
    have h1 : old = some p := by
      rw [show old = (idxRemove s.in_memory_index K).1 from by rw [hR], idxRemove_fst, hp]
    subst h1
    simp
  refine ⟨heq, ?_, by rw [heq], by rw [heq]⟩
  intro hnd
  rw [heq]
  exact idxGet_remove_self K hnd

theorem c10_witness :
    idxGet (runOps emptyStore [Op.opSet "x" "y"]).in_memory_index "x" = some 0 ∧
    KvStore.removeCore (runOps emptyStore [Op.opSet "x" "y"]) "x" false =
      ({ runOps emptyStore [Op.opSet "x" "y"] with
          in_memory_index :=
            (idxRemove (runOps emptyStore [Op.opSet "x" "y"]).in_memory_index "x").2 },
        Except.error Error.io) ∧
    idxGet (KvStore.removeCore (runOps emptyStore [Op.opSet "x" "y"]) "x" false).1.in_memory_index
      "x" = none ∧
    (KvStore.removeCore (runOps emptyStore [Op.opSet "x" "y"]) "x" false).1.log =
      (runOps emptyStore [Op.opSet "x" "y"]).log ∧
    (KvStore.removeCore (runOps emptyStore [Op.opSet "x" "y"]) "x" false).1.obsolete_entries =
      (runOps emptyStore [Op.opSet "x" "y"]).obsolete_entries := by
  have hp : idxGet (runOps emptyStore [Op.opSet "x" "y"]).in_memory_index "x" = some 0 := by
    decide
  obtain ⟨h1, h2, h3, h4⟩ := c10_remove_order hp
  exact ⟨hp, h1, h2 (by decide), h3, h4⟩

/-- The successfully decoded `(command, offset)` items of a log file, as
replay yields them. -/
def logItems (log : List Char) : List (Command × Nat) :=
  (replayFrom log 0).filterMap (fun e => e.toOption)

/-- Whether some index entry points at offset `q`. -/
def pointedBy (idx : List (String × Nat)) (q : Nat) : Bool :=
  idx.any (fun e => e.2 = q)

/-- The number of log records not pointed to by any current index entry —
the quantity the spec's I5 equates with the obsolete counter. -/
def unpointedCount (s : KvStore) : Nat :=
  ((logItems s.log).filter (fun it => !(pointedBy s.in_memory_index it.2))).length

/-- Whether a command is a `Set`. -/
def isSetCmd : Command → Bool
  | Command.set _ _ => true
  | Command.remove _ => false

/-- The number of `Set` records in the log not pointed to by any current
index entry (`Remove` records, which are never pointed to, not counted). -/
def unpointedSetCount (s : KvStore) : Nat :=
  ((logItems s.log).filter
    (fun it => isSetCmd it.1 && !(pointedBy s.in_memory_index it.2))).length

theorem logItems_encList (rs : List Command) : logItems (encList rs) = itemsFrom 0 rs := by
  rw [logItems, replayFrom_encList, List.filterMap_map]
  have h : ((fun (e : Except Error (Command × Nat)) => Except.toOption e) ∘ Except.ok) =
      (some : Command × Nat → Option (Command × Nat)) := rfl
  rw [h, List.filterMap_some]

theorem c5_counterexample :
    StoreInv (runOps emptyStore [Op.opSet "a" "1", Op.opRemove "a"]) ∧
    (runOps emptyStore [Op.opSet "a" "1", Op.opRemove "a"]).obsolete_entries = 1 ∧
    unpointedCount (runOps emptyStore [Op.opSet "a" "1", Op.opRemove "a"]) = 2 ∧
    (runOps emptyStore [Op.opSet "a" "1", Op.opRemove "a"]).obsolete_entries ≠
      unpointedCount (runOps emptyStore [Op.opSet "a" "1", Op.opRemove "a"]) :=
  ⟨inv_runOps inv_empty _, by decide, by decide, by decide⟩

theorem idxInsert_length : ∀ (idx : List (String × Nat)) (k : String) (p : Nat),
    (idxInsert idx k p).2.length =
      if (idxGet idx k).isSome then idx.length else idx.length + 1 := by
  intro idx k p
  induction idx with
  | nil => rfl
  | cons e rest ih =>
    obtain ⟨k0, p0⟩ := e
    rw [idxInsert, idxGet]
    by_cases h : k0 = k
    · rw [if_pos h, if_pos h]
      simp
    · rw [if_neg h, if_neg h]
      simp only [List.length_cons]
      rw [ih]
      cases h2 : (idxGet rest k).isSome
      · simp
      · simp

theorem idxRemove_length : ∀ {idx : List (String × Nat)} {k : String} {q : Nat},
    idxGet idx k = some q → (idxRemove idx k).2.length + 1 = idx.length := by
  intro idx
  induction idx with
  | nil => intro k q h; cases h
  | cons e rest ih =>
    obtain ⟨k0, p0⟩ := e
    intro k q h
    rw [idxGet] at h
    rw [idxRemove]
    by_cases he : k0 = k
    · rw [if_pos he]
      simp
    · rw [if_neg he] at h ⊢
      simp only [List.length_cons]
      rw [← ih h]

theorem fold_len : ∀ (items : List (Command × Nat)) (idx : List (String × Nat)) (obs : Nat)
    (idx' : List (String × Nat)) (obs' : Nat),
    replayFold (items.map Except.ok) idx obs = Except.ok (idx', obs') →
    obs' + idx'.length =
      obs + idx.length + (items.filter (fun it => isSetCmd it.1)).length := by
  intro items
  induction items with
  | nil =>
    intro idx obs idx' obs' h
    cases h
    simp
  | cons it rest ih =>
    intro idx obs idx' obs' h
    obtain ⟨c, p⟩ := it
    match c with
    | Command.set k v =>
      rw [List.map_cons, replayFold_set] at h
      have := ih _ _ _ _ h
      rw [idxInsert_length] at this
      have hfil : ((Command.set k v, p) :: rest).filter (fun it => isSetCmd it.1) =
          (Command.set k v, p) :: rest.filter (fun it => isSetCmd it.1) := by
        simp [List.filter_cons, isSetCmd]
      rw [hfil, List.length_cons]
      cases h2 : (idxGet idx k).isSome
      · rw [h2] at this
        simp at this
        omega
      · rw [h2] at this
        simp at this
        omega
    | Command.remove k =>
      rw [List.map_cons, replayFold_rem] at h
      rcases hR : idxRemove idx k with ⟨old, idx2⟩
      rw [hR] at h
      cases old with
      | none => cases h
      | some q =>
        have hget : idxGet idx k = some q := by
          rw [← idxRemove_fst idx k, hR]
        have hlen : idx2.length + 1 = idx.length := by
          have := idxRemove_length hget
          rw [hR] at this
          exact this
        have := ih _ _ _ _ h
        have hfil : ((Command.remove k, p) :: rest).filter (fun it => isSetCmd it.1) =
            rest.filter (fun it => isSetCmd it.1) := by
          simp [List.filter_cons, isSetCmd]
        rw [hfil]
        omega

theorem mem_snd_unique : ∀ {processed : List (Command × Nat)},
    (processed.map Prod.snd).Nodup →
    ∀ {c1 c2 : Command} {q : Nat}, (c1, q) ∈ processed → (c2, q) ∈ processed → c1 = c2 := by
  intro processed
  induction processed with
  | nil => intro _ c1 c2 q h; cases h
  | cons it rest ih =>
    obtain ⟨c0, q0⟩ := it
    intro hnd c1 c2 q h1 h2
    simp only [List.map_cons, List.nodup_cons] at hnd
    rcases List.mem_cons.mp h1 with ha | ha <;> rcases List.mem_cons.mp h2 with hb | hb
    · rw [show c1 = c0 from congrArg Prod.fst ha, show c2 = c0 from congrArg Prod.fst hb]
    · exfalso
      have hq : q = q0 := congrArg Prod.snd ha
      exact hnd.1 (hq ▸ List.mem_map.mpr ⟨(c2, q), hb, rfl⟩)
    · exfalso
      have hq : q = q0 := congrArg Prod.snd hb
      exact hnd.1 (hq ▸ List.mem_map.mpr ⟨(c1, q), ha, rfl⟩)
    · exact ih hnd.2 ha hb

theorem itemsFrom_snd_nodup : ∀ (rs : List Command) (pos : Nat),
    ((itemsFrom pos rs).map Prod.snd).Nodup := by
  intro rs
  induction rs with
  | nil => intro pos; simp [itemsFrom]
  | cons c rest ih =>
    intro pos
    rw [itemsFrom, List.map_cons, List.nodup_cons]
    refine ⟨?_, ih _⟩
    intro hm
    obtain ⟨⟨c1, q1⟩, hmem, hq⟩ := List.mem_map.mp hm
    simp only at hq
    subst hq
    obtain ⟨rs1, rs2, _, hq⟩ := itemsFrom_mem hmem
    have := encode_length_pos c
    omega

theorem filter_length_split : ∀ (l : List (Command × Nat)) (f : Command × Nat → Bool),
    (l.filter f).length + (l.filter (fun x => !(f x))).length = l.length := by
  intro l f
  induction l with
  | nil => rfl
  | cons a rest ih =>
    rw [List.filter_cons, List.filter_cons]
    cases hf : f a <;> simp [hf] <;> omega

theorem pointedBy_nil (q : Nat) : pointedBy [] q = false := rfl

theorem pointedBy_cons (e : String × Nat) (idx : List (String × Nat)) (q : Nat) :
    pointedBy (e :: idx) q = (decide (e.2 = q) || pointedBy idx q) := rfl

theorem pointedBy_true_iff (idx : List (String × Nat)) (q : Nat) :
    pointedBy idx q = true ↔ ∃ e ∈ idx, e.2 = q := by
  simp [pointedBy, List.any_eq_true]

theorem idx_snd_nodup : ∀ {idx : List (String × Nat)} {processed : List (Command × Nat)},
    (∀ e ∈ idx, ∃ v, (Command.set e.1 v, e.2) ∈ processed) →
    (idxKeys idx).Nodup → (processed.map Prod.snd).Nodup →
    (idx.map Prod.snd).Nodup := by
  intro idx
  induction idx with
  | nil => intro _ _ _ _; simp
  | cons e rest ih =>
    obtain ⟨k, q⟩ := e
    intro processed hsub hknd hoff
    simp only [idxKeys, List.map_cons, List.nodup_cons] at hknd ⊢
    refine ⟨?_, ih (fun e he => hsub e (List.mem_cons_of_mem _ he)) hknd.2 hoff⟩
    intro hm
    obtain ⟨e1, hmem, hq⟩ := List.mem_map.mp hm
    obtain ⟨v1, hv1⟩ := hsub e1 (List.mem_cons_of_mem _ hmem)
    obtain ⟨v0, hv0⟩ := hsub (k, q) (List.mem_cons_self _ _)
    rw [hq] at hv1
    have heq := mem_snd_unique hoff hv0 hv1
    have hk : k = e1.1 := by
      cases heq
      rfl
    exact hknd.1 (hk ▸ List.mem_map.mpr ⟨e1, hmem, rfl⟩)

theorem count_pointed : ∀ {idx : List (String × Nat)} {processed : List (Command × Nat)},
    (∀ e ∈ idx, ∃ v, (Command.set e.1 v, e.2) ∈ processed) →
    (idxKeys idx).Nodup → (processed.map Prod.snd).Nodup →
    (processed.filter (fun it => pointedBy idx it.2)).length = idx.length := by
  intro idx
  induction idx with
  | nil =>
    intro processed _ _ _
    simp [pointedBy_nil]
  | cons e rest ih =>
    obtain ⟨k, q⟩ := e
    intro processed hsub hknd hoff
    have hsnd := idx_snd_nodup hsub hknd hoff
    simp only [List.map_cons, List.nodup_cons] at hsnd
    simp only [idxKeys, List.map_cons, List.nodup_cons] at hknd
    obtain ⟨v, hv⟩ := hsub (k, q) (List.mem_cons_self _ _)
    obtain ⟨l1, l2, hP⟩ := List.append_of_mem hv
    have hoffm := hoff
    rw [hP, List.map_append, List.map_cons] at hoffm
    have hmid := List.nodup_middle.mp hoffm
    simp only [List.nodup_cons, List.mem_append] at hmid
    have hq1 : q ∉ l1.map Prod.snd := fun hm => hmid.1 (Or.inl hm)
    have hq2 : q ∉ l2.map Prod.snd := fun hm => hmid.1 (Or.inr hm)
    have hcongr1 : ∀ l : List (Command × Nat), (∀ x ∈ l, x.2 ≠ q) →
        l.filter (fun it => pointedBy ((k, q) :: rest) it.2) =
          l.filter (fun it => pointedBy rest it.2) := by
      intro l hl
      apply List.filter_congr
      intro x hx
      rw [pointedBy_cons]
      have hd : decide ((k, q).2 = x.2) = false := by
        simp only [decide_eq_false_iff_not]
        exact fun hh => hl x hx (hh ▸ rfl)
      rw [hd, Bool.false_or]
    have hrq : pointedBy rest q = false := by
      cases hpr : pointedBy rest q
      · rfl
      · exfalso
        obtain ⟨e2, he2, hq2'⟩ := (pointedBy_true_iff rest q).mp hpr
        exact hsnd.1 (hq2' ▸ List.mem_map.mpr ⟨e2, he2, rfl⟩)
    have ihv := ih (fun e he => hsub e (List.mem_cons_of_mem _ he)) hknd.2 hoff
    rw [hP] at ihv ⊢
    rw [List.filter_append, List.filter_cons] at ihv ⊢
    have hitem1 : pointedBy ((k, q) :: rest) (Command.set k v, q).2 = true := by
      rw [pointedBy_cons]
      simp
    have hitem2 : pointedBy rest (Command.set k v, q).2 = false := hrq
    rw [hitem1]
    rw [hitem2] at ihv
    rw [hcongr1 l1 (fun x hx hh => hq1 (hh ▸ List.mem_map.mpr ⟨x, hx, rfl⟩)),
      hcongr1 l2 (fun x hx hh => hq2 (hh ▸ List.mem_map.mpr ⟨x, hx, rfl⟩))]
    simp only [if_true, ite_true, Bool.false_eq_true, if_false, ite_false] at ihv ⊢
    simp only [List.length_append, List.length_cons] at ihv ⊢
    omega

theorem pointed_isSet {idx : List (String × Nat)} {processed : List (Command × Nat)}
    (hsub : ∀ e ∈ idx, ∃ v, (Command.set e.1 v, e.2) ∈ processed)
    (hoff : (processed.map Prod.snd).Nodup) :
    ∀ it ∈ processed, pointedBy idx it.2 = true → isSetCmd it.1 = true := by
  intro it hit hp
  obtain ⟨e, he, heq⟩ := (pointedBy_true_iff idx it.2).mp hp
  obtain ⟨v, hv⟩ := hsub e he
  rw [heq] at hv
  obtain ⟨c, q⟩ := it
  have := mem_snd_unique hoff hv hit
  rw [← this]
  rfl

/-- C5 (amended): on an open engine, the obsolete-entry counter equals the
number of `Set` records in the active log that are not pointed to by any
current index entry.  (`Remove` records are never pointed to by the index
and are not counted: the source increments the counter by one per
overwrite/removal, so the claim as stated — over all records — fails.) -/
theorem c5_amended {s : KvStore} (h : StoreInv s) :
    s.obsolete_entries = unpointedSetCount s := by
  obtain ⟨rs, hlog, hfold⟩ := h
  have hknd : (idxKeys s.in_memory_index).Nodup :=
    replayFold_nodup _ _ _ _ _ hfold (by simp [idxKeys])
  have hoff := itemsFrom_snd_nodup rs 0
  have hsub : ∀ e ∈ s.in_memory_index, ∃ v, (Command.set e.1 v, e.2) ∈ itemsFrom 0 rs := by
    intro e he
    obtain ⟨k, q⟩ := e
    have hget := mem_idxGet hknd he
    rcases replayFold_prov _ _ _ _ _ hfold (by simp [idxKeys]) k q hget with ⟨v, hv⟩ | hb
    · exact ⟨v, hv⟩
    · cases hb
  have hlen := fold_len (itemsFrom 0 rs) [] 0 _ _ hfold
  have hcp := count_pointed hsub hknd hoff
  have hps := pointed_isSet hsub hoff
  rw [unpointedSetCount, hlog, logItems_encList]
  have hsplit := filter_length_split ((itemsFrom 0 rs).filter (fun it => isSetCmd it.1))
      (fun it => pointedBy s.in_memory_index it.2)
  rw [List.filter_filter, List.filter_filter] at hsplit
  have hA : ((itemsFrom 0 rs).filter
      (fun a => isSetCmd a.1 && pointedBy s.in_memory_index a.2)).length =
      ((itemsFrom 0 rs).filter (fun it => pointedBy s.in_memory_index it.2)).length := by
    congr 1
    apply List.filter_congr
    intro x hx
    cases hp : pointedBy s.in_memory_index x.2
    · simp
    · simp [hps x hx hp]
  have hswap1 : List.filter (fun a => pointedBy s.in_memory_index a.2 && isSetCmd a.1)
      (itemsFrom 0 rs) =
      List.filter (fun a => isSetCmd a.1 && pointedBy s.in_memory_index a.2)
        (itemsFrom 0 rs) :=
    List.filter_congr (fun x _ => Bool.and_comm _ _)
  have hswap2 : List.filter (fun a => !pointedBy s.in_memory_index a.2 && isSetCmd a.1)
      (itemsFrom 0 rs) =
      List.filter (fun it => isSetCmd it.1 && !pointedBy s.in_memory_index it.2)
        (itemsFrom 0 rs) :=
    List.filter_congr (fun x _ => Bool.and_comm _ _)
  rw [hswap1, hswap2] at hsplit
  simp only [List.length_nil] at hlen
  omega

theorem c5_witness :
    StoreInv (runOps emptyStore [Op.opSet "a" "1", Op.opRemove "a"]) ∧
    (runOps emptyStore [Op.opSet "a" "1", Op.opRemove "a"]).obsolete_entries =
      unpointedSetCount (runOps emptyStore [Op.opSet "a" "1", Op.opRemove "a"]) :=
  ⟨inv_runOps inv_empty _, c5_amended (inv_runOps inv_empty _)⟩

/-- A well-formed log file in the sense of C6: records, each preceded by a
(possibly empty) whitespace gap, followed by trailing whitespace. -/
def fileOfWs : List (List Char × Command) → List Char → List Char
  | [], tws => tws
  | (w, c) :: rest, tws => w ++ encode c ++ fileOfWs rest tws

/-- The items `LogReplay` actually yields on such a file: each command with
the offset of the first byte *after the previous record* (`byte_offset()`
captured before `next()` has skipped the gap), not the record's own first
byte. -/
def itemsFromWs (pos : Nat) : List (List Char × Command) → List (Command × Nat)
  | [] => []
  | (w, c) :: rest => (c, pos) :: itemsFromWs (pos + w.length + (encode c).length) rest

theorem skipWs_all {w : List Char} (hw : ∀ c ∈ w, isWs c = true) :
    skipWs w = (w.length, []) := by
  have h := skipWs_ws_append hw []
  rw [List.append_nil] at h
  rw [h]
  simp
  exact ⟨rfl, rfl⟩

theorem replayFrom_fileOfWs :
    ∀ (gaps : List (List Char × Command)) (tws : List Char) (pos : Nat),
      (∀ g ∈ gaps, ∀ c ∈ g.1, isWs c = true) → (∀ c ∈ tws, isWs c = true) →
      replayFrom (fileOfWs gaps tws) pos = (itemsFromWs pos gaps).map Except.ok := by
  intro gaps
  induction gaps with
  | nil =>
    intro tws pos _ htws
    rw [fileOfWs, itemsFromWs, List.map_nil]
    exact replayFrom_end (by rw [skipWs_all htws]) pos
  | cons g rest ih =>
    obtain ⟨w, c⟩ := g
    intro tws pos hg htws
    rw [fileOfWs, itemsFromWs, List.map_cons]
    have hw : ∀ x ∈ w, isWs x = true := hg (w, c) (List.mem_cons_self _ _)
    have hsk : skipWs (w ++ (encode c ++ fileOfWs rest tws)) =
        ((skipWs (encode c ++ fileOfWs rest tws)).1 + w.length,
         (skipWs (encode c ++ fileOfWs rest tws)).2) := skipWs_ws_append hw _
    rw [skipWs_encode] at hsk
    have hd : decodeRecord ((skipWs (w ++ encode c ++ fileOfWs rest tws)).2) =
        some (c, fileOfWs rest tws) := by
      rw [List.append_assoc, hsk]
      exact decodeRecord_encode c _
    rw [replayFrom_step pos hd]
    have hlen : (w ++ encode c ++ fileOfWs rest tws).length - (fileOfWs rest tws).length =
        w.length + (encode c).length := by
      simp only [List.length_append]
      omega
    rw [hlen, ih tws _ (fun g hgm => hg g (List.mem_cons_of_mem _ hgm)) htws]
    have harith : pos + (w.length + (encode c).length) = pos + w.length + (encode c).length := by
      omega
    rw [harith]

theorem c6_counterexample :
    fileOfWs [(([] : List Char), Command.set "a" "1"), ([' '], Command.remove "a")] [] =
      encode (Command.set "a" "1") ++ ' ' :: encode (Command.remove "a") ∧
    replayFrom
      (fileOfWs [(([] : List Char), Command.set "a" "1"), ([' '], Command.remove "a")] []) 0 =
      [Except.ok (Command.set "a" "1", 0), Except.ok (Command.remove "a", 31)] ∧
    (encode (Command.set "a" "1")).length = 31 ∧
    (fileOfWs [(([] : List Char), Command.set "a" "1"), ([' '], Command.remove "a")] []).drop 32 =
      encode (Command.remove "a") ∧
    (fileOfWs [(([] : List Char), Command.set "a" "1"), ([' '], Command.remove "a")] []).drop 31 ≠
      encode (Command.remove "a") ++ [] := by
  refine ⟨by decide, by decide, by decide, by decide, by decide⟩

/-- C6 (amended): on a well-formed log file — records separated by
whitespace gaps — replay yields the records in file order, and the
`LogPointer` yielded with each record is the offset of the first byte
after the *previous* record (the stream deserializer's byte offset before
the gap is skipped).  When gaps are empty this is the record's first byte,
as the claim states; with whitespace in between it is not. -/
theorem c6_amended (gaps : List (List Char × Command)) (tws : List Char)
    (hg : ∀ g ∈ gaps, ∀ c ∈ g.1, isWs c = true) (htws : ∀ c ∈ tws, isWs c = true) :
    replayFrom (fileOfWs gaps tws) 0 = (itemsFromWs 0 gaps).map Except.ok :=
  replayFrom_fileOfWs gaps tws 0 hg htws

theorem c6_witness :
    replayFrom
      (fileOfWs [(([] : List Char), Command.set "a" "1"), ([' '], Command.remove "a")] []) 0 =
      (itemsFromWs 0 [(([] : List Char), Command.set "a" "1"), ([' '], Command.remove "a")]).map
        Except.ok :=
  c6_amended _ _ (by decide) (by decide)

theorem openStore_encList (rs : List Command) :
    KvStore.openStore (encList rs) =
      (match replayFold ((itemsFrom 0 rs).map Except.ok) [] 0 with
       | Except.ok (idx, obs) => Except.ok ⟨idx, encList rs, obs⟩
       | Except.error e => Except.error e) := by
  rw [KvStore.openStore, replayFrom_encList]

theorem openStore_encList_ok {rs : List Command} {s : KvStore}
    (h : KvStore.openStore (encList rs) = Except.ok s) :
    s.log = encList rs ∧
    replayFold ((itemsFrom 0 rs).map Except.ok) [] 0 =
      Except.ok (s.in_memory_index, s.obsolete_entries) := by
  rw [openStore_encList] at h
  cases hf : replayFold ((itemsFrom 0 rs).map Except.ok) [] 0 with
  | error e => rw [hf] at h; cases h
  | ok p =>
    obtain ⟨idx, obs⟩ := p
    rw [hf] at h
    cases h
    exact ⟨rfl, rfl⟩

/-- C7: replaying `current.log` on open, a `Remove{key}` record whose key
is absent from the index built so far makes `open` fail with `KeyNotFound`
(whatever follows in the log); a `Remove{key}` whose key is present deletes
the key and increments `obsolete_entries` by exactly one. -/
theorem c7_open_remove {rs1 : List Command} {s1 : KvStore} {k : String}
    (h1 : KvStore.openStore (encList rs1) = Except.ok s1) :
    (idxGet s1.in_memory_index k = none →
      ∀ rs2, KvStore.openStore (encList (rs1 ++ Command.remove k :: rs2)) =
        Except.error Error.keyNotFound) ∧
    (∀ q, idxGet s1.in_memory_index k = some q →
      KvStore.openStore (encList (rs1 ++ [Command.remove k])) =
        Except.ok ⟨(idxRemove s1.in_memory_index k).2,
          encList (rs1 ++ [Command.remove k]), s1.obsolete_entries + 1⟩) := by
  obtain ⟨hlog, hfold⟩ := openStore_encList_ok h1
  constructor
  · intro hnone rs2
    rw [openStore_encList, itemsFrom_append, List.map_append, replayFold_append, hfold]
    show (match replayFold _ _ _ with
          | Except.ok (idx, obs) => Except.ok _
          | Except.error e => Except.error e) = _
    rw [itemsFrom, List.map_cons]
    rcases hR : idxRemove s1.in_memory_index k with ⟨old, idx2⟩
    have hold : old = none := by
      rw [show old = (idxRemove s1.in_memory_index k).1 from by rw [hR], idxRemove_fst, hnone]
    subst hold
    rw [replayFold_rem_none hR]
  · intro q hsome
    rw [openStore_encList, itemsFrom_append, List.map_append, replayFold_append, hfold]
    show (match replayFold _ _ _ with
          | Except.ok (idx, obs) => Except.ok _
          | Except.error e => Except.error e) = _
    rw [itemsFrom, itemsFrom, List.map_cons, List.map_nil]
    rcases hR : idxRemove s1.in_memory_index k with ⟨old, idx2⟩
    have hold : old = some q := by
      rw [show old = (idxRemove s1.in_memory_index k).1 from by rw [hR], idxRemove_fst, hsome]
    subst hold
    rw [replayFold_rem_some hR, replayFold_nil]

theorem c7_witness :
    KvStore.openStore (encList [Command.set "a" "1"]) =
      Except.ok (⟨[("a", 0)], encList [Command.set "a" "1"], 0⟩ : KvStore) ∧
    KvStore.openStore (encList ([Command.set "a" "1"] ++ Command.remove "z" :: [])) =
      Except.error Error.keyNotFound ∧
    KvStore.openStore (encList ([Command.set "a" "1"] ++ [Command.remove "a"])) =
      Except.ok ⟨(idxRemove [("a", 0)] "a").2,
        encList ([Command.set "a" "1"] ++ [Command.remove "a"]), 0 + 1⟩ := by
  have h1 : KvStore.openStore (encList [Command.set "a" "1"]) =
      Except.ok (⟨[("a", 0)], encList [Command.set "a" "1"], 0⟩ : KvStore) := by decide
  refine ⟨h1, (c7_open_remove h1).1 (by decide) [], (c7_open_remove h1).2 0 (by decide)⟩
